import Mathlib

/-!
Verification of the cryptographic field-protection layer of the sraha-app
repository: the AES-256-GCM field cipher (`encryptData` / `decryptData` in
`src/common/security/encryption.security.js`), the bcrypt credential hasher
(`hashPassword` / `comparePassword` in `src/common/security/hash.security.js`),
the mongoose phone-field transform (`userSchema.phone` in the db layer), the
configuration loader, and the user service (`signup` / `login`).

Randomness (the fresh 12-byte IV, the bcrypt salt) is made explicit as a
parameter.  Machine bytes are `Nat` below 256; the 128-bit GCM state is a
`Nat` below `2 ^ 128`.  Fallible code returns `Except`.
-/

deriving instance DecidableEq for Except

namespace Sraha

/-! ### Bytes and hex encoding (Node `Buffer` hex semantics) -/

/-- A hex digit as accepted by Node's `Buffer.from(s, 'hex')`:
`0-9`, `a-f`, `A-F`. -/
def isHexChar (c : Char) : Bool :=
  (48 ≤ c.toNat && c.toNat ≤ 57) || (97 ≤ c.toNat && c.toNat ≤ 102)
    || (65 ≤ c.toNat && c.toNat ≤ 70)

/-- Numeric value of a hex digit (0 for non-hex characters). -/
def hexVal (c : Char) : Nat :=
  if 48 ≤ c.toNat && c.toNat ≤ 57 then c.toNat - 48
  else if 97 ≤ c.toNat && c.toNat ≤ 102 then c.toNat - 87
  else if 65 ≤ c.toNat && c.toNat ≤ 70 then c.toNat - 55
  else 0

/-- Lower-case hex digit for a value below 16, as produced by
`buffer.toString('hex')`. -/
def hexDigitChar (n : Nat) : Char :=
  if n < 10 then Char.ofNat (48 + n) else Char.ofNat (87 + n)

/-- The two hex characters of one byte. -/
def byteHex (b : Nat) : List Char := [hexDigitChar (b / 16), hexDigitChar (b % 16)]

/-- `buffer.toString('hex')`: lower-case hex of a byte list. -/
def bytesToHex (bs : List Nat) : List Char := bs.flatMap byteHex

/-- `Buffer.from(s, 'hex')`: Node decodes hex pairs greedily and stops
silently at the first invalid or incomplete pair; it never throws on
non-hex input. -/
def hexPairsToBytes : List Char → List Nat
  | c1 :: c2 :: rest =>
    if isHexChar c1 && isHexChar c2 then
      (hexVal c1 * 16 + hexVal c2) :: hexPairsToBytes rest
    else []
  | _ => []

/-- JavaScript `s.split(':')`: always returns at least one (possibly empty)
segment. -/
def splitColon : List Char → List (List Char)
  | [] => [[]]
  | c :: r =>
    if c = ':' then [] :: splitColon r
    else
      match splitColon r with
      | [] => [[c]]
      | h :: t => (c :: h) :: t

/-! ### UTF-8 (the `'utf8'` input/output encoding used by `cipher.update`) -/

/-- UTF-8 encoding of one unicode code point. -/
def utf8EncodeChar (c : Nat) : List Nat :=
  if c < 128 then [c]
  else if c < 2048 then [192 + c / 64, 128 + c % 64]
  else if c < 65536 then [224 + c / 4096, 128 + c / 64 % 64, 128 + c % 64]
  else [240 + c / 262144, 128 + c / 4096 % 64, 128 + c / 64 % 64, 128 + c % 64]

/-- The UTF-8 bytes of a string (`Buffer.from(data, 'utf8')`). -/
def utf8Bytes (s : String) : List Nat :=
  s.data.flatMap (fun c => utf8EncodeChar c.toNat)

/-- A UTF-8 continuation byte. -/
def isCont (b : Nat) : Bool := 128 ≤ b && b < 192

/-- Number of continuation bytes announced by a UTF-8 lead byte. -/
def contCount (b : Nat) : Nat :=
  if b < 224 then 1 else if b < 240 then 2 else 3

/-- Code point of a UTF-8 sequence: lead byte `b` with its continuation
bytes `body`. -/
def cpOf (b : Nat) (body : List Nat) : Nat :=
  body.foldl (fun a x => a * 64 + (x - 128))
    (b - (if b < 224 then 192 else if b < 240 then 224 else 240))

/-- One decoding step worker with explicit fuel (structural recursion, so
that the kernel can evaluate it); `utf8DecodeCps` supplies enough fuel. -/
def utf8Go : Nat → List Nat → List Nat
  | 0, _ => []
  | _ + 1, [] => []
  | f + 1, b :: r =>
    if b < 128 then b :: utf8Go f r
    else if b < 192 || 248 ≤ b then 65533 :: utf8Go f r
    else if (r.take (contCount b)).length = contCount b
        && (r.take (contCount b)).all isCont then
      cpOf b (r.take (contCount b)) :: utf8Go f (r.drop (contCount b))
    else 65533 :: utf8Go f r

/-- Lossy UTF-8 decoding to code points; invalid bytes become U+FFFD
replacement characters, as Node's `'utf8'` decoding never throws. -/
def utf8DecodeCps (l : List Nat) : List Nat := utf8Go l.length l

/-- Lossy UTF-8 decoding of a byte list to a string. -/
def utf8Decode (l : List Nat) : String :=
  String.mk ((utf8DecodeCps l).map Char.ofNat)

/-! ### The GF(2^128) field of GHASH and the GCM mode

AES-GCM computes its authentication tag with GHASH, a polynomial evaluation
over GF(2^128) = GF(2)[x] / (x^128 + x^7 + x^2 + x + 1) at the subkey
H = E_K(0).  Field elements are `Nat` values below `2 ^ 128`, bit `i`
holding the coefficient of `x^i`. -/

def TWO128 : Nat := 2 ^ 128

/-- Multiplication by `x` in GF(2^128), reducing by
`x^128 = x^7 + x^2 + x + 1` (`0x87`). -/
def mulX (v : Nat) : Nat :=
  if 2 * v < TWO128 then 2 * v else (2 * v - TWO128) ^^^ 135

/-- `x^i * h` in GF(2^128). -/
def xPow : Nat → Nat → Nat
  | 0, h => h
  | i + 1, h => mulX (xPow i h)

/-- GF(2)-linear combination of 128 row vectors selected by the bits of `v`
(addition in GF(2^128) is `xor`). -/
def linComb (rows : Nat → Nat) (v : Nat) : Nat :=
  (List.range 128).foldr (fun i acc => (if v.testBit i then rows i else 0) ^^^ acc) 0

/-- GF(2^128) product `v * h`: the sum over the set bits `i` of `v`
of `x^i * h`. -/
def gmul (v h : Nat) : Nat := linComb (fun i => xPow i h) v

/-- GHASH: fold `y := (y xor block) * h` over the blocks. -/
def ghash (h : Nat) (blocks : List Nat) : Nat :=
  blocks.foldl (fun y x => gmul (y ^^^ x) h) 0

/-- Big-endian value of a byte list. -/
def bytesBE : List Nat → Nat
  | [] => 0
  | b :: r => b * 256 ^ r.length + bytesBE r

/-- Big-endian byte list of fixed length `k` (little argument first). -/
def natToBytesBE : Nat → Nat → List Nat
  | 0, _ => []
  | k + 1, n => natToBytesBE k (n / 256) ++ [n % 256]

/-- Chunking worker with explicit fuel (structural recursion, so that the
kernel can evaluate it); `chunks16` supplies enough fuel. -/
def chunksGo : Nat → List Nat → List (List Nat)
  | 0, _ => []
  | _ + 1, [] => []
  | f + 1, b :: r => (b :: r.take 15) :: chunksGo f (r.drop 15)

/-- Split a byte list into 16-byte chunks (the last one possibly shorter). -/
def chunks16 (l : List Nat) : List (List Nat) := chunksGo l.length l

/-- A chunk zero-padded on the right to a full 16-byte block value. -/
def padBlock (c : List Nat) : Nat :=
  bytesBE (c ++ List.replicate (16 - c.length) 0)

/-- The GHASH length block: the bit length of the ciphertext (no AAD is used
by the source). -/
def lenBlock (n : Nat) : Nat := (8 * n) % TWO128

/-- The GHASH input blocks for a ciphertext. -/
def gBlocks (ct : List Nat) : List Nat :=
  (chunks16 ct).map padBlock ++ [lenBlock ct.length]

/-- Rotate a 128-bit value left by `n`. -/
def rotl128 (x n : Nat) : Nat := x * 2 ^ n % TWO128 + x / 2 ^ (128 - n)

/-- One mixing round of the modelled block cipher. -/
def mixRound (k x : Nat) : Nat :=
  (rotl128 ((x ^^^ k) * 62831853071795864769252867665590057683) 17 + k) % TWO128

/-- Modelled primitive: stands in for the AES-256 block operation performed
inside `node:crypto` by `createCipheriv('aes-256-gcm', …)`.  The theorems
below depend only on it being a fixed deterministic function of the key and
the block, never on its internal structure. -/
def blockE (key : List Nat) (b : Nat) : Nat :=
  mixRound (bytesBE (key.take 16)) (mixRound (bytesBE (key.drop 16))
    (mixRound (bytesBE (key.take 16)) (b % TWO128)))

/-- The GHASH subkey `H = E_K(0)`. -/
def hSub (key : List Nat) : Nat := blockE key 0

/-- The GCM pre-counter block `J0`: `IV || 0x00000001` for a 12-byte IV,
otherwise `GHASH_H(IV)`. -/
def j0 (key iv : List Nat) : Nat :=
  if iv.length = 12 then bytesBE iv * 2 ^ 32 + 1 else ghash (hSub key) (gBlocks iv)

/-- GCM's `inc32`: increment the low 32 bits, keeping the high 96. -/
def inc32 (b : Nat) : Nat := b / 2 ^ 32 * 2 ^ 32 + (b % 2 ^ 32 + 1) % 2 ^ 32

/-- Iterated `inc32`. -/
def ctr (b : Nat) : Nat → Nat
  | 0 => b
  | n + 1 => inc32 (ctr b n)

/-- The CTR keystream of GCM: blocks `E_K(inc32^(i+1)(J0))`, truncated to
`n` bytes (`E_K(J0)` itself is reserved for the tag). -/
def keystream (key iv : List Nat) (n : Nat) : List Nat :=
  ((List.range ((n + 15) / 16)).flatMap
    (fun i => natToBytesBE 16 (blockE key (ctr (j0 key iv) (i + 1))))).take n

/-- Bytewise xor of two lists. -/
def zipXor (a b : List Nat) : List Nat := List.zipWith (fun x y => x ^^^ y) a b

/-- The 16-byte GCM authentication tag: `GHASH_H(C || len) xor E_K(J0)`. -/
def authTag (key iv ct : List Nat) : List Nat :=
  natToBytesBE 16 (ghash (hSub key) (gBlocks ct) ^^^ blockE key (j0 key iv))

/-- The ciphertext bytes of a plaintext string: its UTF-8 bytes xored with
the keystream (GCM is a stream-style mode, so the length is preserved). -/
def ctBytes (key iv : List Nat) (data : String) : List Nat :=
  zipXor (utf8Bytes data) (keystream key iv (utf8Bytes data).length)

/-- `encryptData` of `encryption.security.js`: generate the ciphertext and
tag and join `IV : TAG : CIPHERTEXT` hex-encoded.  The freshly drawn 12-byte
random IV is the explicit `iv` argument. -/
def encryptData (key iv : List Nat) (data : String) : String :=
  String.mk (bytesToHex iv ++ ':' ::
    bytesToHex (authTag key iv (ctBytes key iv data)) ++ ':' ::
    bytesToHex (ctBytes key iv data))

/-- The distinct exceptions Node's crypto layer can raise inside
`decryptData`: a `TypeError` from passing `undefined` where a string is
expected, `ERR_CRYPTO_INVALID_IV` for an empty GCM IV, an invalid
authentication-tag length from `setAuthTag`, and the authentication failure
thrown by `decipher.final()`. -/
inductive DecryptError
  | typeError
  | invalidIV
  | invalidTagLength
  | authFailure
deriving DecidableEq

/-- The GCM tag lengths `setAuthTag` accepts (in bytes). -/
def validTagLen (n : Nat) : Bool :=
  n = 16 || n = 15 || n = 14 || n = 13 || n = 12 || n = 8 || n = 4

/-- `decryptData` of `encryption.security.js`:
`const [iv, tag, content] = encryptedData.split(':')` (segments beyond the
third are ignored, missing ones are `undefined`), then
`createDecipheriv` with the hex-decoded IV, `setAuthTag` with the
hex-decoded tag, `update(content, 'hex', 'utf8')` and `final()`.
The plaintext computed by `update` is returned only if the tag verifies;
otherwise `final()` throws and nothing is returned to the caller. -/
def decryptData (key : List Nat) (enc : String) : Except DecryptError String :=
  let parts := splitColon enc.data
  let ivB := hexPairsToBytes (parts.headD [])
  if ivB.length = 0 then .error .invalidIV
  else
    match parts.get? 1 with
    | none => .error .typeError
    | some tagPart =>
      let tagB := hexPairsToBytes tagPart
      if validTagLen tagB.length = false then .error .invalidTagLength
      else
        match parts.get? 2 with
        | none => .error .typeError
        | some ctPart =>
          let ctB := hexPairsToBytes ctPart
          let pt := zipXor ctB (keystream key ivB ctB.length)
          if (authTag key ivB ctB).take tagB.length = tagB then .ok (utf8Decode pt)
          else .error .authFailure

/-! ### The bcrypt credential hasher (`hash.security.js`)

`hashPassword` and `comparePassword` delegate to the `bcrypt` npm package:
`bcrypt.hash(password, Number(SALT_ROUND))` draws a fresh 16-byte salt,
runs the bcrypt key derivation over at most the first 72 bytes of the
password (bytes beyond 72 are ignored by the algorithm), and returns a
single string embedding the version marker, the cost, the salt and the
digest.  `bcrypt.compare(password, hash)` re-parses the hash, recomputes
the digest with the embedded salt and cost, and compares; for a hash that
does not parse it resolves to `false` without throwing.  The salt is the
explicit randomness parameter below. -/

/-- A decimal digit character. -/
def isDigitChar (c : Char) : Bool := 48 ≤ c.toNat && c.toNat ≤ 57

/-- The character of a decimal digit. -/
def digitChar (n : Nat) : Char := Char.ofNat (48 + n)

/-- The salt repeated to cover the 72 usable password bytes. -/
def saltStream (salt : List Nat) : List Nat :=
  (salt ++ salt ++ salt ++ salt ++ salt).take 72

/-- Modelled primitive: stands in for the bcrypt key derivation inside the
`bcrypt` package.  The theorems depend only on it being deterministic in
(salt, password), collision-free for a fixed salt, and — as bcrypt does —
ignoring password bytes beyond the first 72. -/
def bcryptDigest (salt pwd : List Nat) : List Nat :=
  zipXor (pwd.take 72) (saltStream salt)

/-- The bcrypt output string: version marker, two-digit cost, then the salt
and digest (hex-encoded in this model). -/
def mkBcryptHash (cost : Nat) (salt pwd : List Nat) : List Char :=
  '$' :: '2' :: 'b' :: '$' :: digitChar (cost / 10 % 10) :: digitChar (cost % 10) :: '$'
    :: (bytesToHex salt ++ bytesToHex (bcryptDigest salt pwd))

/-- `hashPassword` of `hash.security.js`: `bcrypt.hash(password, cost)` with
the internally drawn salt made explicit. -/
def hashPassword (cost : Nat) (salt : List Nat) (password : String) : String :=
  String.mk (mkBcryptHash cost salt (utf8Bytes password))

/-- Parsing a stored bcrypt hash back into cost, salt and digest; `none` for
strings that are not of the expected shape. -/
def parseBcryptHash : List Char → Option (Nat × List Nat × List Nat)
  | c0 :: c1 :: c2 :: c3 :: d1 :: d2 :: c6 :: rest =>
    if c0 = '$' && c1 = '2' && c2 = 'b' && c3 = '$' && c6 = '$'
        && isDigitChar d1 && isDigitChar d2 && rest.all isHexChar
        && rest.length % 2 = 0 && 32 ≤ rest.length then
      some ((d1.toNat - 48) * 10 + (d2.toNat - 48),
        hexPairsToBytes (rest.take 32), hexPairsToBytes (rest.drop 32))
    else none
  | _ => none

/-- `comparePassword` of `hash.security.js`: `bcrypt.compare` re-parses the
hash and compares the recomputed digest; a malformed hash resolves to
`false`, it never throws. -/
def comparePassword (password : String) (hashed : String) : Bool :=
  match parseBcryptHash hashed.data with
  | none => false
  | some (_, salt, digest) =>
    if bcryptDigest salt (utf8Bytes password) = digest then true else false

/-! ### Configuration loading -/

/-- Failure modes of configuration validation. -/
inductive ConfigError
  | missingKey
  | invalidKey
  | missingCost
  | invalidCost
deriving DecidableEq

/-- The validated process-wide configuration. -/
structure AppConfig where
  key : List Nat
  cost : Nat
deriving DecidableEq

/-- Parse a positive decimal integer, rejecting anything else. -/
def parsePosInt (s : String) : Option Nat :=
  if s.data ≠ [] && s.data.all isDigitChar then
    if 0 < s.data.foldl (fun a c => a * 10 + (c.toNat - 48)) 0 then
      some (s.data.foldl (fun a c => a * 10 + (c.toNat - 48)) 0)
    else none
  else none

/-- Modelled from the spec: the configuration loader
(`config/config.service.js`) is not under `src/`; per §6 it loads
`ENCRYPTION_KEY` (64 hex characters = 32 bytes) and `HASH_COST_FACTOR`
(a positive integer) once at startup, and absence or a malformed value
must prevent the dependent component from initializing — fail closed,
never proceeding with a default. -/
def loadConfig (encKey costFactor : Option String) : Except ConfigError AppConfig :=
  match encKey with
  | none => .error .missingKey
  | some k =>
    if k.data.length = 64 && k.data.all isHexChar then
      match costFactor with
      | none => .error .missingCost
      | some c =>
        match parsePosInt c with
        | none => .error .invalidCost
        | some n => .ok ⟨hexPairsToBytes k.data, n⟩
    else .error .invalidKey

/-! ### The phone field transform (`userSchema.phone` in the db layer)

The schema binds the cipher to the `phone` path:
`set: (value) => { if (!value) return value; return encryptData(value); }`
and `get: (value) => decryptData(value)`.  An absent value is `none`, the
empty string is the falsy `""`. -/

/-- The `phone` setter: falsy values (absent or empty) are returned
unchanged without invoking the cipher; anything else is encrypted. -/
def phoneSet (key iv : List Nat) : Option String → Option String
  | none => none
  | some v => if v = "" then some v else some (encryptData key iv v)

/-- The `phone` getter: `decryptData(value)` unconditionally.  On an absent
value, `decryptData(undefined)` throws a `TypeError` at
`encryptedData.split(':')`. -/
def phoneGet (key : List Nat) : Option String → Except DecryptError String
  | none => .error .typeError
  | some v => decryptData key v

/-! ### The user service (`user.service.js`) -/

/-- The error thrown by `throwError` (`ApiError.utils.js`). -/
structure ApiError where
  message : String
  statusCode : Nat
deriving DecidableEq

/-- The signup request body after validation. -/
structure SignupInputs where
  firstName : String
  lastName : String
  email : String
  password : String
  phone : Option String
deriving DecidableEq

/-- A user document as stored: the password field holds the bcrypt hash,
the phone field the encoded ciphertext. -/
structure StoredUser where
  firstName : String
  lastName : String
  email : String
  password : String
  phone : Option String
deriving DecidableEq

/-- The login request body. -/
structure LoginInputs where
  email : String
  password : String
deriving DecidableEq

/-- The serialized fields of a user document as the response layer sees
them (`toObject` / `toJSON` with `getters: true`): every schema path's
getter runs, so the phone getter (`decryptData(value)`, modelled by
`phoneGet`) is invoked even for an absent phone, and an exception it
throws propagates and aborts serialization.  On success the stored
password hash is carried under the `"password"` key. -/
def docFields (key : List Nat) (u : StoredUser) :
    Except DecryptError (List (String × String)) :=
  match phoneGet key u.phone with
  | .error e => .error e
  | .ok t =>
    .ok [("firstName", u.firstName), ("lastName", u.lastName),
      ("email", u.email), ("password", u.password), ("phone", t)]

/-- `signup` of `user.service.js`: reject an existing email with a 409,
hash the password, create the user (the phone setter encrypting on write)
and return the created document — including its stored password hash. -/
def signup (cost : Nat) (salt key iv : List Nat) (db : List StoredUser)
    (inp : SignupInputs) : Except ApiError (List StoredUser × StoredUser) :=
  match db.find? (fun u => u.email == inp.email) with
  | some _ => .error ⟨"email already exist", 409⟩
  | none =>
    let u : StoredUser :=
      ⟨inp.firstName, inp.lastName, inp.email,
        hashPassword cost salt inp.password, phoneSet key iv inp.phone⟩
    .ok (db ++ [u], u)

/-- `login` of `user.service.js`: look the user up by email, verify the
password, then return `user.toObject()` with the `password` key deleted.
An exception thrown by a getter inside `toObject` propagates (the inner
`Except`); the outer `Except` is the `throwError` path. -/
def login (key : List Nat) (db : List StoredUser) (inp : LoginInputs) :
    Except ApiError (Except DecryptError (List (String × String))) :=
  match db.find? (fun u => u.email == inp.email) with
  | none => .error ⟨"Invalid email or password", 404⟩
  | some u =>
    if comparePassword inp.password u.password then
      .ok ((docFields key u).map (fun fields =>
        fields.filter (fun kv => kv.1 != "password")))
    else .error ⟨"Invalid email or password", 401⟩

/-! ### Concrete values used to exercise the model at specific inputs -/

/-- A concrete 32-byte key for concrete evaluations. -/
def wKey : List Nat := (List.range 32).map (fun i => i + 1)

/-- A concrete 12-byte IV. -/
def wIV : List Nat := (List.range 12).map (fun i => i + 17)

/-- A second, distinct concrete 12-byte IV. -/
def wIV2 : List Nat := (List.range 12).map (fun i => i + 101)

/-- A concrete 16-byte bcrypt salt. -/
def wSalt : List Nat := (List.range 16).map (fun i => 2 * i + 3)

/-- A second, distinct concrete 16-byte bcrypt salt. -/
def wSalt2 : List Nat := (List.range 16).map (fun i => 2 * i + 5)

/-- A concrete 64-hex-character `ENCRYPTION_KEY` value. -/
def wKeyHex : String :=
  "000102030405060708090a0b0c0d0e0f101112131415161718191a1b1c1d1e1f"

/-! ### An explicit inverse witness for multiplication by the GHASH subkey

Tag sensitivity to a single tampered ciphertext block is exactly
invertibility of the GF(2^128) map `v ↦ v * H`.  The map is GF(2)-linear,
so a left inverse is certified by an explicit 128×128 bit matrix checked on
the 128 basis vectors. -/

/-- Row `i` of an explicit matrix over GF(2), rows as 128-bit values. -/
def mRow (m : List Nat) (i : Nat) : Nat := m.getD i 0

/-- The linear map of an explicit matrix: xor of the rows selected by the
set bits of `v`. -/
def mApply (m : List Nat) (v : Nat) : Nat := linComb (mRow m) v

/-- `mApply m` inverts `· * h` on all 128 basis vectors (hence, by
linearity, on every 128-bit value). -/
def invCheck (m : List Nat) (h : Nat) : Bool :=
  (List.range 128).all (fun i => mApply m (gmul (2 ^ i) h) == 2 ^ i)

/-- The explicit inverse matrix certifying that multiplication by
`hSub wKey` is injective (checked by `invCheck`). -/
def mW : List Nat := [
  310983711197651728265495875541968264961,
  281685055474364993067617143652168318597,
  223087744027791522671859679872568425869,
  105893121134644581880344752313368640413,
  211786242269289163760689504626737280826,
  83290117617639864058004401821706350323,
  166580235235279728116008803643412700646,
  333160470470559456232017607286825401292,
  326038574020180449000660607141882591007,
  311794781119422434537946606851996970681,
  283307195317906405612518606272225730037,
  226332023714874347761662605112683248493,
  112381680508810232059950602793598285405,
  224763361017620464119901205587196570810,
  109244355114302464776427803742624930291,
  218488710228604929552855607485249860582,
  96695053536271395642336607538731509579,
  193390107072542791284673215077463019158,
  46497847224147119105971822723157826987,
  92995694448294238211943645446315653974,
  185991388896588476423887290892631307948,
  31700410872238489384399974353494404575,
  63400821744476978768799948706988809150,
  126801643488953957537599897413977618300,
  253603286977907915075199794827955236600,
  166924207034877366687024982224142261623,
  333848414069754733374049964448284523246,
  327414461218571003284725321464800834907,
  314546555516203543106076035497833458225,
  288810744111468622748777463563898705125,
  237339121301998782034180319696029198669,
  134395875683059100604986031960290185757,
  268791751366118201209972063920580371514,
  197301135811297938956569520409392531699,
  54319904701657414449764433387016851809,
  108639809403314828899528866774033703618,
  217279618806629657799057733548067407236,
  94276870692320852134740859664366603151,
  188553741384641704269481719328733206302,
  36825115848344945075588831225698201275,
  73650231696689890151177662451396402550,
  147300463393379780302355324902792805100,
  294600926786759560604710649805585610200,
  248919486652580657746046692179403008823,
  157556606384222852028718776927037806313,
  315113212768445704057437553854075612626,
  289944058615952944651500500276383013667,
  239605750310967425839626393120997816001,
  138929133700996388215878178810227420421,
  277858267401992776431756357620454840842,
  215434167883047089400138107809141470355,
  90585968845155715336901608186514729377,
  181171937690311430673803216373029458754,
  22061508459684397884231825314290705923,
  44123016919368795768463650628581411846,
  88246033838737591536927301257162823692,
  176492067677475183073854602514325647384,
  12701768434011902684334597596883083447,
  25403536868023805368669195193766166894,
  50807073736047610737338390387532333788,
  101614147472095221474676780775064667576,
  203228294944190442949353561550129335152,
  66174222967442422435332515668490458727,
  132348445934884844870665031336980917454,
  264696891869769689741330062673961834908,
  189111416818600916019285517916155458495,
  37940466716263368575196428400542705657,
  75880933432526737150392856801085411314,
  151761866865053474300785713602170822628,
  303523733730106948601571427204341645256,
  266765100539275433739768246976915078935,
  193247834157612404016161886522061946537,
  46213301394286344568949165612355681749,
  92426602788572689137898331224711363498,
  184853205577145378275796662449422726996,
  29424044233352293088218717467077242415,
  58848088466704586176437434934154484830,
  117696176933409172352874869868308969660,
  235392353866818344705749739736617939320,
  130502340812698225948124872041467667063,
  261004681625396451896249744082935334126,
  181726996329854440329124880734102456667,
  23171625738770417194875154036436701745,
  46343251477540834389750308072873403490,
  92686502955081668779500616145746806980,
  185373005910163337559001232291493613960,
  30463644899388211654627857151219016599,
  60927289798776423309255714302438033198,
  121854579597552846618511428604876066396,
  243709159195105693237022857209752132792,
  147135951469272923010671106987736054263,
  294271902938545846021342213975472108526,
  248261438956153228579309820519176005467,
  156240510991367993695245033606583799345,
  312481021982735987390490067213167598690,
  284679677044533511317605526994566985795,
  229076987168128559171836446557365760001,
  117871607415318654880298285682963308677,
  235743214830637309760596571365926617354,
  131204062740336156057818535300085023379,
  262408125480672312115637070600170046758,
  184533884040406160767899533768571882187,
  28785401159873858072424460105375552785,
  57570802319747716144848920210751105570,
  115141604639495432289697840421502211140,
  230283209278990864579395680843004422280,
  120284051637043265695416754254240633239,
  240568103274086531390833508508481266478,
  140853839627234599318292409585194321627,
  281707679254469198636584819170388643254,
  223132991587999933809795030909009075179,
  105983616255061404156215454386249938769,
  211967232510122808312430908772499877538,
  83652098099307153161487210113231543747,
  167304196198614306322974420226463087494,
  334608392397228612645948840452926174988,
  328934417873518761828523073474084138655,
  317586468826099060193671539516400065977,
  294890570731259656923968471601031920629,
  249498774541580850384562335770295629677,
  158715182162223237305750064108823047773,
  317430364324446474611500128217646095546,
  294578361727954485759625649003523979763,
  248874356534970508055876690575279747937,
  157466346149002552648378773718791284293,
  314932692298005105296757547437582568586,
  289583017675071747130140487443396925843,
  238883668429205030796906367455025640353]

end Sraha

namespace Sraha

/-! ## Lemmas: characters and hex -/

theorem char_toNat_lt (c : Char) : c.toNat < 1114112 := by
  have h := c.valid
  rcases h with h | ⟨h1, h2⟩
  · have : c.val.toNat < 55296 := h
    simp [Char.toNat]; omega
  · have : c.val.toNat < 1114112 := h2
    simp [Char.toNat]; omega

theorem hexVal_lt (c : Char) (h : isHexChar c = true) : hexVal c < 16 := by
  simp only [isHexChar, Bool.or_eq_true, Bool.and_eq_true, decide_eq_true_eq] at h
  unfold hexVal
  repeat' split
  all_goals simp_all only [Bool.and_eq_true, decide_eq_true_eq]
  all_goals omega

theorem hexVal_hexDigitChar : ∀ n < 16, hexVal (hexDigitChar n) = n := by decide

theorem isHexChar_hexDigitChar : ∀ n < 16, isHexChar (hexDigitChar n) = true := by decide

theorem hexDigitChar_ne_colon : ∀ n < 16, hexDigitChar n ≠ ':' := by decide

theorem bytesToHex_nil : bytesToHex [] = [] := rfl

theorem bytesToHex_cons (b : Nat) (r : List Nat) :
    bytesToHex (b :: r) = hexDigitChar (b / 16) :: hexDigitChar (b % 16) :: bytesToHex r := rfl

theorem length_bytesToHex (bs : List Nat) : (bytesToHex bs).length = 2 * bs.length := by
  induction bs with
  | nil => rfl
  | cons b r ih => simp [bytesToHex_cons, ih]; omega

theorem mem_bytesToHex {bs : List Nat} (hb : ∀ b ∈ bs, b < 256) :
    ∀ c ∈ bytesToHex bs, isHexChar c = true ∧ c ≠ ':' := by
  induction bs with
  | nil => simp [bytesToHex]
  | cons b r ih =>
    have hblt : b < 256 := hb b (by simp)
    have h1 : b / 16 < 16 := by omega
    have h2 : b % 16 < 16 := by omega
    intro c hc
    rw [bytesToHex_cons] at hc
    simp only [List.mem_cons] at hc
    rcases hc with rfl | rfl | hc
    · exact ⟨isHexChar_hexDigitChar _ h1, hexDigitChar_ne_colon _ h1⟩
    · exact ⟨isHexChar_hexDigitChar _ h2, hexDigitChar_ne_colon _ h2⟩
    · exact ih (fun x hx => hb x (by simp [hx])) c hc

theorem colon_not_mem_bytesToHex {bs : List Nat} (hb : ∀ b ∈ bs, b < 256) :
    ':' ∉ bytesToHex bs := by
  intro h
  exact (mem_bytesToHex hb ':' h).2 rfl

theorem hexPairsToBytes_bytesToHex {bs : List Nat} (hb : ∀ b ∈ bs, b < 256) :
    hexPairsToBytes (bytesToHex bs) = bs := by
  induction bs with
  | nil => rfl
  | cons b r ih =>
    have hblt : b < 256 := hb b (by simp)
    have h1 : b / 16 < 16 := by omega
    have h2 : b % 16 < 16 := by omega
    rw [bytesToHex_cons]
    rw [hexPairsToBytes]
    rw [if_pos (by rw [isHexChar_hexDigitChar _ h1, isHexChar_hexDigitChar _ h2]; rfl)]
    rw [hexVal_hexDigitChar _ h1, hexVal_hexDigitChar _ h2]
    rw [ih (fun x hx => hb x (by simp [hx]))]
    congr 1
    omega

theorem bytesToHex_injOn {a b : List Nat} (ha : ∀ x ∈ a, x < 256) (hb : ∀ x ∈ b, x < 256)
    (h : bytesToHex a = bytesToHex b) : a = b := by
  have h2 := hexPairsToBytes_bytesToHex ha
  rw [h, hexPairsToBytes_bytesToHex hb] at h2
  exact h2.symm

theorem hexPairsToBytes_lt (l : List Char) : ∀ b ∈ hexPairsToBytes l, b < 256 := by
  induction l using hexPairsToBytes.induct with
  | case1 c1 c2 rest ht ih =>
    rw [hexPairsToBytes, if_pos ht]
    intro b hbmem
    simp only [List.mem_cons] at hbmem
    rcases hbmem with rfl | hbmem
    · simp only [Bool.and_eq_true] at ht
      have := hexVal_lt c1 ht.1
      have := hexVal_lt c2 ht.2
      omega
    · exact ih b hbmem
  | case2 c1 c2 rest ht => rw [hexPairsToBytes, if_neg ht]; simp
  | case3 t ht =>
    cases t with
    | nil => simp [hexPairsToBytes]
    | cons c t2 =>
      cases t2 with
      | nil => simp [hexPairsToBytes]
      | cons c2 t3 => exact absurd rfl (ht c c2 t3)

theorem length_hexPairsToBytes_all_hex {l : List Char} (h : ∀ c ∈ l, isHexChar c = true) :
    (hexPairsToBytes l).length = l.length / 2 := by
  induction l using hexPairsToBytes.induct with
  | case1 c1 c2 rest ht ih =>
    rw [hexPairsToBytes, if_pos ht]
    simp only [List.length_cons]
    rw [ih (fun c hc => h c (by simp [hc]))]
    omega
  | case2 c1 c2 rest ht =>
    exfalso
    have h1 := h c1 (by simp)
    have h2 := h c2 (by simp)
    rw [h1, h2] at ht
    exact ht rfl
  | case3 t ht =>
    cases t with
    | nil => simp [hexPairsToBytes]
    | cons c t2 =>
      cases t2 with
      | nil => simp [hexPairsToBytes]
      | cons c2 t3 => exact absurd rfl (ht c c2 t3)

/-! ## Lemmas: splitColon -/

theorem splitColon_no_colon {l : List Char} (h : ':' ∉ l) : splitColon l = [l] := by
  induction l with
  | nil => rfl
  | cons c r ih =>
    rw [splitColon]
    rw [if_neg (by intro hc; exact h (by simp [hc]))]
    rw [ih (fun hc => h (by simp [hc]))]

theorem splitColon_append {a : List Char} (r : List Char) (h : ':' ∉ a) :
    splitColon (a ++ ':' :: r) = a :: splitColon r := by
  induction a with
  | nil => simp [splitColon]
  | cons c t ih =>
    have hc : ¬(c = ':') := by intro hc; exact h (by simp [hc])
    rw [List.cons_append, splitColon, if_neg hc,
      ih (fun hm => h (by simp [hm]))]

/-! ## Lemmas: UTF-8 -/

theorem utf8Go_fuel : ∀ f g : Nat, ∀ l : List Nat,
    l.length ≤ f → l.length ≤ g → utf8Go f l = utf8Go g l := by
  intro f
  induction f with
  | zero =>
    intro g l hf hg
    have hl : l = [] := by cases l <;> simp_all
    subst hl
    cases g <;> rfl
  | succ f ih =>
    intro g l hf hg
    cases l with
    | nil => cases g <;> rfl
    | cons b r =>
      cases g with
      | zero => simp at hg
      | succ g =>
        simp only [List.length_cons] at hf hg
        rw [utf8Go, utf8Go]
        rw [ih g r (by omega) (by omega)]
        rw [ih g (r.drop (contCount b))
          (by simp only [List.length_drop]; omega)
          (by simp only [List.length_drop]; omega)]

theorem utf8DecodeCps_nil : utf8DecodeCps [] = [] := rfl

theorem utf8DecodeCps_eq (b : Nat) (r : List Nat) :
    utf8DecodeCps (b :: r) =
      if b < 128 then b :: utf8DecodeCps r
      else if b < 192 || 248 ≤ b then 65533 :: utf8DecodeCps r
      else if (r.take (contCount b)).length = contCount b
          && (r.take (contCount b)).all isCont then
        cpOf b (r.take (contCount b)) :: utf8DecodeCps (r.drop (contCount b))
      else 65533 :: utf8DecodeCps r := by
  show utf8Go (r.length + 1) (b :: r) = _
  rw [utf8Go]
  rw [utf8Go_fuel r.length (r.drop (contCount b)).length (r.drop (contCount b))
    (by simp only [List.length_drop]; omega) le_rfl]
  rfl

theorem utf8EncodeChar_lt {c : Nat} (h : c < 1114112) :
    ∀ b ∈ utf8EncodeChar c, b < 256 := by
  intro b hb
  unfold utf8EncodeChar at hb
  split at hb
  · simp only [List.mem_singleton] at hb; omega
  · split at hb
    · simp only [List.mem_cons, List.not_mem_nil, or_false] at hb
      rcases hb with rfl | rfl <;> omega
    · split at hb
      · simp only [List.mem_cons, List.not_mem_nil, or_false] at hb
        rcases hb with rfl | rfl | rfl <;> omega
      · simp only [List.mem_cons, List.not_mem_nil, or_false] at hb
        rcases hb with rfl | rfl | rfl | rfl <;> omega

set_option maxRecDepth 4096 in
theorem utf8DecodeCps_encode {c : Nat} (h : c < 1114112) (rest : List Nat) :
    utf8DecodeCps (utf8EncodeChar c ++ rest) = c :: utf8DecodeCps rest := by
  unfold utf8EncodeChar
  by_cases h1 : c < 128
  · rw [if_pos h1, List.cons_append, List.nil_append, utf8DecodeCps_eq, if_pos h1]
  · rw [if_neg h1]
    by_cases h2 : c < 2048
    · rw [if_pos h2, List.cons_append, List.cons_append, List.nil_append,
        utf8DecodeCps_eq]
      rw [if_neg (by omega)]
      rw [if_neg (by simp only [Bool.or_eq_true, decide_eq_true_eq]; omega)]
      have hcc : contCount (192 + c / 64) = 1 := by
        unfold contCount; rw [if_pos (by omega)]
      rw [hcc]
      have htake : List.take 1 ((128 + c % 64) :: rest) = [128 + c % 64] := rfl
      have hdrop : List.drop 1 ((128 + c % 64) :: rest) = rest := rfl
      rw [htake, hdrop]
      have hcond : (([128 + c % 64] : List Nat).length = 1
          && ([128 + c % 64] : List Nat).all isCont) = true := by
        simp [isCont] <;> omega
      rw [if_pos hcond]
      congr 1
      unfold cpOf
      simp only [List.foldl_cons, List.foldl_nil]
      rw [if_pos (by omega)]
      omega
    · rw [if_neg h2]
      by_cases h3 : c < 65536
      · rw [if_pos h3, List.cons_append, List.cons_append, List.cons_append,
          List.nil_append, utf8DecodeCps_eq]
        rw [if_neg (by omega)]
        rw [if_neg (by simp only [Bool.or_eq_true, decide_eq_true_eq]; omega)]
        have hcc : contCount (224 + c / 4096) = 2 := by
          unfold contCount; rw [if_neg (by omega), if_pos (by omega)]
        rw [hcc]
        have htake : List.take 2 ((128 + c / 64 % 64) :: (128 + c % 64) :: rest)
            = [128 + c / 64 % 64, 128 + c % 64] := rfl
        have hdrop : List.drop 2 ((128 + c / 64 % 64) :: (128 + c % 64) :: rest)
            = rest := rfl
        rw [htake, hdrop]
        have hcond : (([128 + c / 64 % 64, 128 + c % 64] : List Nat).length = 2
            && ([128 + c / 64 % 64, 128 + c % 64] : List Nat).all isCont) = true := by
          simp [isCont] <;> omega
        rw [if_pos hcond]
        congr 1
        unfold cpOf
        simp only [List.foldl_cons, List.foldl_nil]
        rw [if_neg (by omega), if_pos (by omega)]
        omega
      · rw [if_neg h3, List.cons_append, List.cons_append, List.cons_append,
          List.cons_append, List.nil_append, utf8DecodeCps_eq]
        rw [if_neg (by omega)]
        rw [if_neg (by simp only [Bool.or_eq_true, decide_eq_true_eq]; omega)]
        have hcc : contCount (240 + c / 262144) = 3 := by
          unfold contCount; rw [if_neg (by omega), if_neg (by omega)]
        rw [hcc]
        have htake : List.take 3
            ((128 + c / 4096 % 64) :: (128 + c / 64 % 64) :: (128 + c % 64) :: rest)
            = [128 + c / 4096 % 64, 128 + c / 64 % 64, 128 + c % 64] := rfl
        have hdrop : List.drop 3
            ((128 + c / 4096 % 64) :: (128 + c / 64 % 64) :: (128 + c % 64) :: rest)
            = rest := rfl
        rw [htake, hdrop]
        have hcond : (([128 + c / 4096 % 64, 128 + c / 64 % 64, 128 + c % 64] : List Nat).length = 3
            && ([128 + c / 4096 % 64, 128 + c / 64 % 64, 128 + c % 64] : List Nat).all isCont) = true := by
          simp [isCont] <;> omega
        rw [if_pos hcond]
        congr 1
        unfold cpOf
        simp only [List.foldl_cons, List.foldl_nil]
        rw [if_neg (by omega), if_neg (by omega)]
        omega

theorem utf8DecodeCps_flatMap (cs : List Char) :
    utf8DecodeCps (cs.flatMap (fun c => utf8EncodeChar c.toNat)) = cs.map Char.toNat := by
  induction cs with
  | nil => rfl
  | cons c r ih =>
    rw [List.flatMap_cons, utf8DecodeCps_encode (char_toNat_lt c), ih, List.map_cons]

theorem utf8Decode_utf8Bytes (s : String) : utf8Decode (utf8Bytes s) = s := by
  unfold utf8Decode utf8Bytes
  rw [utf8DecodeCps_flatMap]
  rw [List.map_map]
  have hco : (Char.ofNat ∘ Char.toNat) = id := by
    funext c
    exact Char.ofNat_toNat c
  rw [hco, List.map_id]

theorem utf8Bytes_lt (s : String) : ∀ b ∈ utf8Bytes s, b < 256 := by
  intro b hb
  unfold utf8Bytes at hb
  rw [List.mem_flatMap] at hb
  obtain ⟨c, _, hbc⟩ := hb
  exact utf8EncodeChar_lt (char_toNat_lt c) b hbc

/-! ## Lemmas: byte serialization, keystream, xor -/

theorem natToBytesBE_length : ∀ k n : Nat, (natToBytesBE k n).length = k := by
  intro k
  induction k with
  | zero => intro n; rfl
  | succ k ih =>
    intro n
    rw [natToBytesBE, List.length_append, ih]
    simp

theorem natToBytesBE_lt : ∀ k n : Nat, ∀ b ∈ natToBytesBE k n, b < 256 := by
  intro k
  induction k with
  | zero => intro n b hb; simp [natToBytesBE] at hb
  | succ k ih =>
    intro n b hb
    rw [natToBytesBE] at hb
    rw [List.mem_append] at hb
    rcases hb with hb | hb
    · exact ih _ b hb
    · simp only [List.mem_singleton] at hb
      subst hb
      omega

theorem flatMap_range_length (g : Nat → List Nat) :
    ∀ k : Nat, (∀ i, (g i).length = 16) → ((List.range k).flatMap g).length = 16 * k := by
  intro k hg
  induction k with
  | zero => rfl
  | succ k ih =>
    rw [List.range_succ, List.flatMap_append, List.length_append, ih]
    simp only [List.flatMap_cons, List.flatMap_nil, List.append_nil, hg]
    omega

theorem keystream_length (key iv : List Nat) (n : Nat) :
    (keystream key iv n).length = n := by
  unfold keystream
  rw [List.length_take]
  rw [flatMap_range_length _ _ (fun i => natToBytesBE_length 16 _)]
  omega

theorem keystream_lt (key iv : List Nat) (n : Nat) :
    ∀ b ∈ keystream key iv n, b < 256 := by
  intro b hb
  unfold keystream at hb
  have hb2 := List.mem_of_mem_take hb
  rw [List.mem_flatMap] at hb2
  obtain ⟨i, _, hbi⟩ := hb2
  exact natToBytesBE_lt 16 _ b hbi

theorem zipXor_length (a b : List Nat) : (zipXor a b).length = min a.length b.length := by
  unfold zipXor
  exact List.length_zipWith _ _ _

theorem zipXor_zipXor : ∀ a k : List Nat, a.length ≤ k.length →
    zipXor (zipXor a k) k = a := by
  intro a
  induction a with
  | nil => intro k hk; rfl
  | cons x xs ih =>
    intro k hk
    cases k with
    | nil => simp at hk
    | cons y ys =>
      simp only [List.length_cons] at hk
      show (x ^^^ y ^^^ y) :: zipXor (zipXor xs ys) ys = x :: xs
      rw [Nat.xor_assoc, Nat.xor_self, Nat.xor_zero, ih ys (by omega)]

theorem zipXor_lt : ∀ a b : List Nat, (∀ x ∈ a, x < 256) → (∀ x ∈ b, x < 256) →
    ∀ x ∈ zipXor a b, x < 256 := by
  intro a
  induction a with
  | nil => intro b _ _ x hx; simp [zipXor] at hx
  | cons y ys ih =>
    intro b ha hb x hx
    cases b with
    | nil => simp [zipXor] at hx
    | cons z zs =>
      have : zipXor (y :: ys) (z :: zs) = (y ^^^ z) :: zipXor ys zs := rfl
      rw [this] at hx
      simp only [List.mem_cons] at hx
      rcases hx with rfl | hx
      · show y ^^^ z < 2 ^ 8
        exact Nat.xor_lt_two_pow (ha y (by simp)) (hb z (by simp))
      · exact ih zs (fun u hu => ha u (by simp [hu])) (fun u hu => hb u (by simp [hu])) x hx

/-! ## Lemmas: the shape of `encryptData` and the decrypt inverse -/

theorem data_mk (l : List Char) : (String.mk l).data = l := rfl

theorem ctBytes_length (key iv : List Nat) (x : String) :
    (ctBytes key iv x).length = (utf8Bytes x).length := by
  unfold ctBytes
  rw [zipXor_length, keystream_length]
  omega

theorem ctBytes_lt (key iv : List Nat) (x : String) :
    ∀ b ∈ ctBytes key iv x, b < 256 :=
  zipXor_lt _ _ (utf8Bytes_lt x) (keystream_lt key iv _)

theorem authTag_length (key iv ct : List Nat) : (authTag key iv ct).length = 16 :=
  natToBytesBE_length 16 _

theorem authTag_lt (key iv ct : List Nat) : ∀ b ∈ authTag key iv ct, b < 256 :=
  natToBytesBE_lt 16 _

theorem splitColon_encryptData (key iv : List Nat) (x : String)
    (hiv : ∀ b ∈ iv, b < 256) :
    splitColon (encryptData key iv x).data =
      [bytesToHex iv, bytesToHex (authTag key iv (ctBytes key iv x)),
        bytesToHex (ctBytes key iv x)] := by
  unfold encryptData
  rw [data_mk]
  rw [List.append_assoc, List.cons_append]
  rw [splitColon_append _ (colon_not_mem_bytesToHex hiv)]
  rw [splitColon_append _ (colon_not_mem_bytesToHex (authTag_lt key iv _))]
  rw [splitColon_no_colon (colon_not_mem_bytesToHex (ctBytes_lt key iv x))]

theorem decryptData_encryptData (key iv : List Nat) (x : String)
    (hiv12 : iv.length = 12) (hiv : ∀ b ∈ iv, b < 256) :
    decryptData key (encryptData key iv x) = .ok x := by
  unfold decryptData
  rw [splitColon_encryptData key iv x hiv]
  simp only [List.headD, List.get?]
  rw [hexPairsToBytes_bytesToHex hiv]
  rw [if_neg (by rw [hiv12]; omega)]
  rw [hexPairsToBytes_bytesToHex (authTag_lt key iv _)]
  rw [if_neg (by rw [authTag_length]; decide)]
  rw [hexPairsToBytes_bytesToHex (ctBytes_lt key iv x)]
  rw [if_pos (by
    rw [authTag_length]
    exact List.take_of_length_le (le_of_eq (authTag_length key iv _)))]
  congr 1
  rw [ctBytes_length]
  show utf8Decode (zipXor (zipXor (utf8Bytes x) (keystream key iv (utf8Bytes x).length))
    (keystream key iv (utf8Bytes x).length)) = x
  rw [zipXor_zipXor _ _ (le_of_eq (keystream_length key iv _).symm)]
  exact utf8Decode_utf8Bytes x

/-! ## Claim C1: encrypt/decrypt round trip -/

/-- C1: for every UTF-8 string `x` (including the empty string and
multi-byte strings) and any fresh 12-byte IV chosen during encryption,
`decryptData (encryptData x) = x`. -/
theorem C1_decrypt_encrypt_roundtrip (key iv : List Nat) (x : String)
    (hiv12 : iv.length = 12) (hiv : ∀ b ∈ iv, b < 256) :
    decryptData key (encryptData key iv x) = Except.ok x :=
  decryptData_encryptData key iv x hiv12 hiv

set_option maxRecDepth 100000 in
/-- Witness for C1 at a concrete key, IV and multi-byte string. -/
theorem C1_decrypt_encrypt_roundtrip_witness :
    wIV.length = 12 ∧ (∀ b ∈ wIV, b < 256) ∧
    decryptData wKey (encryptData wKey wIV "héllo ☃") = Except.ok "héllo ☃" :=
  ⟨by decide, by decide,
    C1_decrypt_encrypt_roundtrip wKey wIV "héllo ☃" (by decide) (by decide)⟩

/-! ## Claim C9: fresh IVs give distinct encodings of the same plaintext -/

/-- C9: `encryptData` is non-deterministic by design — two calls drawing
distinct fresh 12-byte IVs produce different encoded strings, and both
decode back to the plaintext. -/
theorem C9_fresh_iv_distinct (key iv1 iv2 : List Nat) (x : String)
    (h1 : iv1.length = 12) (h2 : iv2.length = 12)
    (b1 : ∀ b ∈ iv1, b < 256) (b2 : ∀ b ∈ iv2, b < 256)
    (hne : iv1 ≠ iv2) :
    encryptData key iv1 x ≠ encryptData key iv2 x ∧
    decryptData key (encryptData key iv1 x) = Except.ok x ∧
    decryptData key (encryptData key iv2 x) = Except.ok x := by
  refine ⟨?_, decryptData_encryptData key iv1 x h1 b1,
    decryptData_encryptData key iv2 x h2 b2⟩
  intro heq
  have hs1 := splitColon_encryptData key iv1 x b1
  have hs2 := splitColon_encryptData key iv2 x b2
  rw [heq, hs2] at hs1
  have hhex : bytesToHex iv2 = bytesToHex iv1 := (List.cons.injEq _ _ _ _).mp hs1 |>.1
  exact hne (bytesToHex_injOn b1 b2 hhex.symm)

set_option maxRecDepth 100000 in
/-- Witness for C9 at two concrete distinct IVs. -/
theorem C9_fresh_iv_distinct_witness :
    wIV ≠ wIV2 ∧
    encryptData wKey wIV "secret" ≠ encryptData wKey wIV2 "secret" ∧
    decryptData wKey (encryptData wKey wIV "secret") = Except.ok "secret" ∧
    decryptData wKey (encryptData wKey wIV2 "secret") = Except.ok "secret" :=
  ⟨by decide,
    (C9_fresh_iv_distinct wKey wIV wIV2 "secret" (by decide) (by decide)
      (by decide) (by decide) (by decide)).1,
    (C9_fresh_iv_distinct wKey wIV wIV2 "secret" (by decide) (by decide)
      (by decide) (by decide) (by decide)).2.1,
    (C9_fresh_iv_distinct wKey wIV wIV2 "secret" (by decide) (by decide)
      (by decide) (by decide) (by decide)).2.2⟩

/-! ## Claim C4: on-the-wire format of `encryptData` -/

/-- C4: the output of `encryptData` is a single string with exactly two `:`
characters, splitting into a 24-hex-char IV segment, a 32-hex-char TAG
segment and a hex CIPHERTEXT segment whose byte length equals the UTF-8
byte length of the plaintext, in the fixed order IV:TAG:CIPHERTEXT. -/
theorem C4_encoded_format (key iv : List Nat) (x : String)
    (hiv12 : iv.length = 12) (hiv : ∀ b ∈ iv, b < 256) :
    (encryptData key iv x).data.count ':' = 2 ∧
    splitColon (encryptData key iv x).data =
      [bytesToHex iv, bytesToHex (authTag key iv (ctBytes key iv x)),
        bytesToHex (ctBytes key iv x)] ∧
    (bytesToHex iv).length = 24 ∧
    (bytesToHex (authTag key iv (ctBytes key iv x))).length = 32 ∧
    (bytesToHex (ctBytes key iv x)).length = 2 * (utf8Bytes x).length ∧
    (hexPairsToBytes (bytesToHex (ctBytes key iv x))).length = (utf8Bytes x).length := by
  refine ⟨?_, splitColon_encryptData key iv x hiv, ?_, ?_, ?_, ?_⟩
  · have hA : (bytesToHex iv).count ':' = 0 :=
      List.count_eq_zero.mpr (colon_not_mem_bytesToHex hiv)
    have hB : (bytesToHex (authTag key iv (ctBytes key iv x))).count ':' = 0 :=
      List.count_eq_zero.mpr (colon_not_mem_bytesToHex (authTag_lt key iv _))
    have hC : (bytesToHex (ctBytes key iv x)).count ':' = 0 :=
      List.count_eq_zero.mpr (colon_not_mem_bytesToHex (ctBytes_lt key iv x))
    unfold encryptData
    rw [data_mk]
    simp [List.count_append, List.count_cons, hA, hB, hC]
  · rw [length_bytesToHex, hiv12]
  · rw [length_bytesToHex, authTag_length]
  · rw [length_bytesToHex, ctBytes_length]
  · rw [hexPairsToBytes_bytesToHex (ctBytes_lt key iv x), ctBytes_length]

set_option maxRecDepth 100000 in
/-- Witness for C4 at the spec's concrete scenario plaintext. -/
theorem C4_encoded_format_witness :
    (encryptData wKey wIV "+15551234567").data.count ':' = 2 ∧
    (bytesToHex wIV).length = 24 ∧
    (bytesToHex (authTag wKey wIV (ctBytes wKey wIV "+15551234567"))).length = 32 ∧
    (bytesToHex (ctBytes wKey wIV "+15551234567")).length =
      2 * (utf8Bytes "+15551234567").length :=
  ⟨(C4_encoded_format wKey wIV "+15551234567" (by decide) (by decide)).1,
    (C4_encoded_format wKey wIV "+15551234567" (by decide) (by decide)).2.2.1,
    (C4_encoded_format wKey wIV "+15551234567" (by decide) (by decide)).2.2.2.1,
    (C4_encoded_format wKey wIV "+15551234567" (by decide) (by decide)).2.2.2.2.1⟩

/-! ## Claim C3: malformed-input behaviour of `decryptData` -/

set_option maxRecDepth 100000 in
/-- Counterexample to C3: an input whose split yields four segments (so not
exactly three) is not rejected at all — `decryptData` silently ignores the
extra segment and succeeds, returning the plaintext, instead of failing
with a `MalformedCiphertext` error. -/
theorem C3_counterexample_extra_segment :
    (splitColon (encryptData wKey wIV "hi" ++ ":zz").data).length = 4 ∧
    decryptData wKey (encryptData wKey wIV "hi" ++ ":zz") = Except.ok "hi" := by
  constructor
  · decide
  · decide

/-- C3 (amended): there is no distinct `MalformedCiphertext` error kind in
the code.  If the split yields fewer than three segments, `decryptData`
fails with one of the Node-level errors (`TypeError`, invalid IV, invalid
tag length) and never returns a value; segments beyond the third are
ignored rather than rejected, and non-hex characters are silently dropped
by hex decoding, failure then surfacing from IV validation or tag
authentication. -/
theorem C3_amended_fewer_segments_error (key : List Nat) (s : String)
    (h : (splitColon s.data).length < 3) :
    ∃ e, decryptData key s = Except.error e := by
  unfold decryptData
  by_cases h0 : (hexPairsToBytes ((splitColon s.data).headD [])).length = 0
  · rw [if_pos h0]
    exact ⟨_, rfl⟩
  · rw [if_neg h0]
    cases hg1 : (splitColon s.data).get? 1 with
    | none =>
      simp only [hg1]
      exact ⟨_, rfl⟩
    | some tagPart =>
      simp only [hg1]
      by_cases hv : validTagLen (hexPairsToBytes tagPart).length = false
      · rw [if_pos hv]
        exact ⟨_, rfl⟩
      · rw [if_neg hv]
        have hg2 : (splitColon s.data).get? 2 = none := by
          rw [List.get?_eq_none]
          omega
        simp only [hg2]
        exact ⟨_, rfl⟩

/-- Witness for the amended C3 at a concrete two-segment input. -/
theorem C3_amended_fewer_segments_error_witness :
    (splitColon ("aa:bb" : String).data).length < 3 ∧
    (∃ e, decryptData wKey "aa:bb" = Except.error e) :=
  ⟨by decide, C3_amended_fewer_segments_error wKey "aa:bb" (by decide)⟩

/-! ## Claim C6: the phone field transform -/

/-- Counterexample to C6: the read path is not symmetric — the getter
invokes `decryptData` unconditionally, so an absent stored value raises a
`TypeError` and an empty string raises an invalid-IV error instead of being
passed through. -/
theorem C6_counterexample_getter_not_passthrough :
    phoneGet wKey none = Except.error DecryptError.typeError ∧
    phoneGet wKey (some "") = Except.error DecryptError.invalidIV := by
  constructor
  · rfl
  · decide

/-- C6 (amended): the write path (setter) does pass falsy values through
without invoking the cipher, but the read path (getter) calls
`decryptData` unconditionally, so absent/empty stored values produce
errors rather than being passed through. -/
theorem C6_amended_setter_passthrough_getter_not (key iv : List Nat) :
    phoneSet key iv none = none ∧
    phoneSet key iv (some "") = some "" ∧
    phoneGet key none = Except.error DecryptError.typeError ∧
    phoneGet key (some "") = Except.error DecryptError.invalidIV := by
  refine ⟨rfl, ?_, rfl, ?_⟩
  · simp [phoneSet]
  · rfl

/-! ## Lemmas: the bcrypt model -/

theorem isDigitChar_digitChar : ∀ n < 10, isDigitChar (digitChar n) = true := by decide

theorem toNat_digitChar : ∀ n < 10, (digitChar n).toNat = 48 + n := by decide

theorem saltStream_length {salt : List Nat} (hs : salt.length = 16) :
    (saltStream salt).length = 72 := by
  unfold saltStream
  rw [List.length_take]
  simp [List.length_append, hs]

theorem saltStream_lt {salt : List Nat} (hb : ∀ b ∈ salt, b < 256) :
    ∀ b ∈ saltStream salt, b < 256 := by
  intro b hbm
  have := List.mem_of_mem_take hbm
  simp only [List.mem_append] at this
  rcases this with ((((h | h) | h) | h) | h) <;> exact hb b h

theorem bcryptDigest_lt {salt pwd : List Nat} (hs : ∀ b ∈ salt, b < 256)
    (hp : ∀ b ∈ pwd, b < 256) : ∀ b ∈ bcryptDigest salt pwd, b < 256 :=
  zipXor_lt _ _ (fun x hx => hp x (List.mem_of_mem_take hx)) (saltStream_lt hs)

theorem zipXor_injOn : ∀ a b s : List Nat, a.length ≤ s.length → b.length ≤ s.length →
    zipXor a s = zipXor b s → a = b := by
  intro a
  induction a with
  | nil =>
    intro b s _ hbs heq
    have hz : zipXor b s = [] := heq.symm
    have hlen := congrArg List.length hz
    rw [zipXor_length] at hlen
    simp only [List.length_nil] at hlen
    have hb0 : b.length = 0 := by omega
    exact (List.length_eq_zero.mp hb0).symm
  | cons x xs ih =>
    intro b s has hbs heq
    cases s with
    | nil => simp at has
    | cons y ys =>
      cases b with
      | nil =>
        have := congrArg List.length heq
        rw [zipXor_length, zipXor_length] at this
        simp only [List.length_cons, List.length_nil] at this
        omega
      | cons z zs =>
        simp only [List.length_cons] at has hbs
        have hx : x ^^^ y = z ^^^ y := by
          have : (x ^^^ y) :: zipXor xs ys = (z ^^^ y) :: zipXor zs ys := heq
          exact (List.cons.injEq _ _ _ _).mp this |>.1
        have htail : zipXor xs ys = zipXor zs ys :=
          (List.cons.injEq _ _ _ _).mp heq |>.2
        have hxz : x = z := by
          have h2 : (x ^^^ y) ^^^ y = (z ^^^ y) ^^^ y := by rw [hx]
          rwa [Nat.xor_assoc, Nat.xor_self, Nat.xor_zero,
            Nat.xor_assoc, Nat.xor_self, Nat.xor_zero] at h2
        rw [hxz, ih zs ys (by omega) (by omega) htail]

theorem bcryptDigest_injOn {salt : List Nat} (hs : salt.length = 16)
    {p1 p2 : List Nat} (hne : p1.take 72 ≠ p2.take 72) :
    bcryptDigest salt p1 ≠ bcryptDigest salt p2 := by
  intro heq
  unfold bcryptDigest at heq
  have hlen : (saltStream salt).length = 72 := saltStream_length hs
  have h1 : (p1.take 72).length ≤ (saltStream salt).length := by
    rw [hlen, List.length_take]; omega
  have h2 : (p2.take 72).length ≤ (saltStream salt).length := by
    rw [hlen, List.length_take]; omega
  exact hne (zipXor_injOn _ _ _ h1 h2 heq)

theorem parse_mkBcryptHash (cost : Nat) (salt pwd : List Nat) (hc : cost < 100)
    (hs : salt.length = 16) (hsb : ∀ b ∈ salt, b < 256) (hpb : ∀ b ∈ pwd, b < 256) :
    parseBcryptHash (mkBcryptHash cost salt pwd) =
      some (cost, salt, bcryptDigest salt pwd) := by
  have hd1 : cost / 10 % 10 < 10 := by omega
  have hd2 : cost % 10 < 10 := by omega
  have hdig : ∀ b ∈ bcryptDigest salt pwd, b < 256 := bcryptDigest_lt hsb hpb
  have hhex : ∀ c ∈ bytesToHex salt ++ bytesToHex (bcryptDigest salt pwd),
      isHexChar c = true := by
    intro c hcm
    rw [List.mem_append] at hcm
    rcases hcm with hcm | hcm
    · exact (mem_bytesToHex hsb c hcm).1
    · exact (mem_bytesToHex hdig c hcm).1
  have hsaltlen : (bytesToHex salt).length = 32 := by
    rw [length_bytesToHex, hs]
  unfold mkBcryptHash
  rw [parseBcryptHash]
  split
  · congr 1
    refine Prod.ext ?_ (Prod.ext ?_ ?_)
    · show ((digitChar (cost / 10 % 10)).toNat - 48) * 10
        + ((digitChar (cost % 10)).toNat - 48) = cost
      rw [toNat_digitChar _ hd1, toNat_digitChar _ hd2]
      omega
    · show hexPairsToBytes
        ((bytesToHex salt ++ bytesToHex (bcryptDigest salt pwd)).take 32) = salt
      rw [← hsaltlen, List.take_left, hexPairsToBytes_bytesToHex hsb]
    · show hexPairsToBytes
        ((bytesToHex salt ++ bytesToHex (bcryptDigest salt pwd)).drop 32)
        = bcryptDigest salt pwd
      rw [← hsaltlen, List.drop_left, hexPairsToBytes_bytesToHex hdig]
  · rename_i hfalse
    exfalso
    apply hfalse
    simp only [Bool.and_eq_true, decide_eq_true_eq]
    refine ⟨⟨⟨⟨⟨⟨⟨⟨⟨trivial, trivial⟩, trivial⟩, trivial⟩, trivial⟩,
      isDigitChar_digitChar _ hd1⟩,
      isDigitChar_digitChar _ hd2⟩, List.all_eq_true.mpr hhex⟩, ?_⟩, ?_⟩
    · rw [List.length_append, length_bytesToHex, length_bytesToHex]
      omega
    · rw [List.length_append, hsaltlen]
      omega

theorem comparePassword_hashPassword_true (cost : Nat) (salt : List Nat) (p : String)
    (hc : cost < 100) (hs : salt.length = 16) (hsb : ∀ b ∈ salt, b < 256) :
    comparePassword p (hashPassword cost salt p) = true := by
  unfold comparePassword hashPassword
  rw [data_mk, parse_mkBcryptHash cost salt _ hc hs hsb (utf8Bytes_lt p)]
  simp

theorem comparePassword_malformed_false (p h : String)
    (hp : parseBcryptHash h.data = none) : comparePassword p h = false := by
  unfold comparePassword
  rw [hp]

theorem comparePassword_wrong_false (cost : Nat) (salt : List Nat) (p q : String)
    (hc : cost < 100) (hs : salt.length = 16) (hsb : ∀ b ∈ salt, b < 256)
    (hne : (utf8Bytes q).take 72 ≠ (utf8Bytes p).take 72) :
    comparePassword q (hashPassword cost salt p) = false := by
  unfold comparePassword hashPassword
  rw [data_mk, parse_mkBcryptHash cost salt _ hc hs hsb (utf8Bytes_lt p)]
  have hne2 := bcryptDigest_injOn hs hne
  simp [hne2]

theorem hashPassword_salt_ne (cost : Nat) (s1 s2 : List Nat) (p : String)
    (hc : cost < 100) (h1 : s1.length = 16) (h2 : s2.length = 16)
    (hb1 : ∀ b ∈ s1, b < 256) (hb2 : ∀ b ∈ s2, b < 256) (hne : s1 ≠ s2) :
    hashPassword cost s1 p ≠ hashPassword cost s2 p := by
  intro heq
  have hdata := congrArg String.data heq
  unfold hashPassword at hdata
  rw [data_mk, data_mk] at hdata
  have hp1 := parse_mkBcryptHash cost s1 (utf8Bytes p) hc h1 hb1 (utf8Bytes_lt p)
  have hp2 := parse_mkBcryptHash cost s2 (utf8Bytes p) hc h2 hb2 (utf8Bytes_lt p)
  rw [hdata, hp2] at hp1
  simp only [Option.some.injEq, Prod.mk.injEq] at hp1
  exact hne hp1.2.1.symm

/-! ## Claim C7: comparePassword semantics -/

/-- Counterexample to C7: for a malformed hash, `bcrypt.compare` (and hence
`comparePassword`) resolves to `false` instead of reporting a distinct
`InvalidHashFormat` error. -/
theorem C7_counterexample_malformed_returns_false :
    comparePassword "secret" "not-a-bcrypt-hash" = false := by decide

/-- C7 (amended): `comparePassword` never throws — it is a total boolean
function.  A non-matching password yields `false`; a malformed hash also
yields `false` rather than a distinct `InvalidHashFormat` error. -/
theorem C7_amended_compare_semantics (p h : String) (cost : Nat) (salt : List Nat)
    (p0 : String) (hc : cost < 100) (hs : salt.length = 16)
    (hsb : ∀ b ∈ salt, b < 256) :
    (parseBcryptHash h.data = none → comparePassword p h = false) ∧
    ((utf8Bytes p).take 72 ≠ (utf8Bytes p0).take 72 →
      comparePassword p (hashPassword cost salt p0) = false) ∧
    comparePassword p0 (hashPassword cost salt p0) = true :=
  ⟨comparePassword_malformed_false p h,
    fun hne => comparePassword_wrong_false cost salt p0 p hc hs hsb hne,
    comparePassword_hashPassword_true cost salt p0 hc hs hsb⟩

set_option maxRecDepth 100000 in
/-- Witness for the amended C7 at concrete passwords and hash values. -/
theorem C7_amended_compare_semantics_witness :
    comparePassword "wrong" "not-a-bcrypt-hash" = false ∧
    comparePassword "wrong" (hashPassword 10 wSalt "secret") = false ∧
    comparePassword "secret" (hashPassword 10 wSalt "secret") = true :=
  ⟨(C7_amended_compare_semantics "wrong" "not-a-bcrypt-hash" 10 wSalt "secret"
      (by decide) (by decide) (by decide)).1 (by decide),
    (C7_amended_compare_semantics "wrong" "not-a-bcrypt-hash" 10 wSalt "secret"
      (by decide) (by decide) (by decide)).2.1 (by decide),
    (C7_amended_compare_semantics "wrong" "not-a-bcrypt-hash" 10 wSalt "secret"
      (by decide) (by decide) (by decide)).2.2⟩

/-! ## Claim C8: hash freshness and the verify relation -/

set_option maxRecDepth 1000000 in
/-- Counterexample to C8: bcrypt ignores password bytes beyond the first 72,
so two distinct passwords sharing a 72-byte prefix verify against each
other's hashes — the negative case fails for such pairs. -/
theorem C8_counterexample_truncation :
    String.mk (List.replicate 72 'a' ++ ['b']) ≠
      String.mk (List.replicate 72 'a' ++ ['c']) ∧
    comparePassword (String.mk (List.replicate 72 'a' ++ ['c']))
      (hashPassword 10 wSalt (String.mk (List.replicate 72 'a' ++ ['b']))) = true := by
  constructor
  · decide
  · decide

/-- C8 (amended): two hashes of the same password made with distinct fresh
salts are different strings; both verify the password; and a password whose
first 72 UTF-8 bytes differ from the hashed password's fails to verify
(bcrypt truncates passwords at 72 bytes, so distinctness beyond that limit
is not detected). -/
theorem C8_amended_hash_properties (cost : Nat) (s1 s2 : List Nat) (p q : String)
    (hc : cost < 100) (h1 : s1.length = 16) (h2 : s2.length = 16)
    (hb1 : ∀ b ∈ s1, b < 256) (hb2 : ∀ b ∈ s2, b < 256) (hne : s1 ≠ s2)
    (hq : (utf8Bytes q).take 72 ≠ (utf8Bytes p).take 72) :
    hashPassword cost s1 p ≠ hashPassword cost s2 p ∧
    comparePassword p (hashPassword cost s1 p) = true ∧
    comparePassword p (hashPassword cost s2 p) = true ∧
    comparePassword q (hashPassword cost s1 p) = false :=
  ⟨hashPassword_salt_ne cost s1 s2 p hc h1 h2 hb1 hb2 hne,
    comparePassword_hashPassword_true cost s1 p hc h1 hb1,
    comparePassword_hashPassword_true cost s2 p hc h2 hb2,
    comparePassword_wrong_false cost s1 p q hc h1 hb1 hq⟩

set_option maxRecDepth 100000 in
/-- Witness for the amended C8 at concrete salts and passwords. -/
theorem C8_amended_hash_properties_witness :
    hashPassword 10 wSalt "secret" ≠ hashPassword 10 wSalt2 "secret" ∧
    comparePassword "secret" (hashPassword 10 wSalt "secret") = true ∧
    comparePassword "secret" (hashPassword 10 wSalt2 "secret") = true ∧
    comparePassword "wrong" (hashPassword 10 wSalt "secret") = false :=
  ⟨(C8_amended_hash_properties 10 wSalt wSalt2 "secret" "wrong" (by decide)
      (by decide) (by decide) (by decide) (by decide) (by decide) (by decide)).1,
    (C8_amended_hash_properties 10 wSalt wSalt2 "secret" "wrong" (by decide)
      (by decide) (by decide) (by decide) (by decide) (by decide) (by decide)).2.1,
    (C8_amended_hash_properties 10 wSalt wSalt2 "secret" "wrong" (by decide)
      (by decide) (by decide) (by decide) (by decide) (by decide) (by decide)).2.2.1,
    (C8_amended_hash_properties 10 wSalt wSalt2 "secret" "wrong" (by decide)
      (by decide) (by decide) (by decide) (by decide) (by decide) (by decide)).2.2.2⟩

/-! ## Claim C5: configuration validation (spec-modelled loader) -/

theorem loadConfig_none_eq (hc : Option String) :
    loadConfig none hc = Except.error ConfigError.missingKey := rfl

theorem loadConfig_some_eq (k : String) (hc : Option String) :
    loadConfig (some k) hc =
      if k.data.length = 64 && k.data.all isHexChar then
        match hc with
        | none => Except.error ConfigError.missingCost
        | some c =>
          match parsePosInt c with
          | none => Except.error ConfigError.invalidCost
          | some n => Except.ok ⟨hexPairsToBytes k.data, n⟩
      else Except.error ConfigError.invalidKey := rfl

theorem parsePosInt_pos {s : String} {n : Nat} (h : parsePosInt s = some n) :
    0 < n := by
  unfold parsePosInt at h
  split at h
  · split at h
    · rename_i h0
      cases h
      exact h0
    · exact Option.noConfusion h
  · exact Option.noConfusion h

/-- C5: the configuration loader validates `ENCRYPTION_KEY` (must hex-decode
to exactly 32 bytes) and `HASH_COST_FACTOR` (must be a positive integer) and
fails closed with a `ConfigurationError` on absence or malformation; a
successfully initialized configuration always carries a validated 32-byte
key and positive cost, so `encryptData` and `hashPassword` — which take the
loaded `AppConfig` values — are never invoked with unvalidated inputs. -/
theorem C5_config_fail_closed :
    (∀ ek hc cfg, loadConfig ek hc = Except.ok cfg →
      cfg.key.length = 32 ∧ (∀ b ∈ cfg.key, b < 256) ∧ 0 < cfg.cost) ∧
    (∀ hc, loadConfig none hc = Except.error ConfigError.missingKey) ∧
    (∀ k hc, ¬(k.data.length = 64 ∧ k.data.all isHexChar = true) →
      loadConfig (some k) hc = Except.error ConfigError.invalidKey) ∧
    (∀ k, k.data.length = 64 → k.data.all isHexChar = true →
      loadConfig (some k) none = Except.error ConfigError.missingCost) ∧
    (∀ k c, k.data.length = 64 → k.data.all isHexChar = true →
      parsePosInt c = none →
      loadConfig (some k) (some c) = Except.error ConfigError.invalidCost) := by
  refine ⟨?_, fun hc => rfl, ?_, ?_, ?_⟩
  · intro ek hc cfg h
    cases ek with
    | none =>
      rw [loadConfig_none_eq] at h
      exact Except.noConfusion h
    | some k =>
      rw [loadConfig_some_eq] at h
      split at h
      · rename_i hcond
        simp only [Bool.and_eq_true, decide_eq_true_eq] at hcond
        cases hc with
        | none => exact Except.noConfusion h
        | some c =>
          dsimp only at h
          cases hp : parsePosInt c with
          | none =>
            rw [hp] at h
            exact Except.noConfusion h
          | some n =>
            rw [hp] at h
            dsimp only at h
            injection h with h2
            subst h2
            refine ⟨?_, hexPairsToBytes_lt _, parsePosInt_pos hp⟩
            have hlen := length_hexPairsToBytes_all_hex (List.all_eq_true.mp hcond.2)
            rw [hlen, hcond.1]
      · exact Except.noConfusion h
  · intro k hc hbad
    rw [loadConfig_some_eq]
    split
    · rename_i hcond
      exfalso
      apply hbad
      simp only [Bool.and_eq_true, decide_eq_true_eq] at hcond
      exact hcond
    · rfl
  · intro k h64 hall
    rw [loadConfig_some_eq]
    split
    · rfl
    · rename_i hcond
      exfalso
      apply hcond
      simp only [Bool.and_eq_true, decide_eq_true_eq]
      exact ⟨h64, hall⟩
  · intro k c h64 hall hp
    rw [loadConfig_some_eq]
    split
    · dsimp only
      rw [hp]
    · rename_i hcond
      exfalso
      apply hcond
      simp only [Bool.and_eq_true, decide_eq_true_eq]
      exact ⟨h64, hall⟩

set_option maxRecDepth 100000 in
/-- Witness for C5 at concrete configuration values. -/
theorem C5_config_fail_closed_witness :
    (hexPairsToBytes wKeyHex.data).length = 32 ∧
    (∀ b ∈ hexPairsToBytes wKeyHex.data, b < 256) ∧
    0 < (10 : Nat) ∧
    loadConfig none (some "10") = Except.error ConfigError.missingKey ∧
    loadConfig (some "short") (some "10") = Except.error ConfigError.invalidKey ∧
    loadConfig (some wKeyHex) none = Except.error ConfigError.missingCost ∧
    loadConfig (some wKeyHex) (some "0") = Except.error ConfigError.invalidCost := by
  have h := C5_config_fail_closed
  exact ⟨(h.1 (some wKeyHex) (some "10") ⟨hexPairsToBytes wKeyHex.data, 10⟩ (by decide)).1,
    (h.1 (some wKeyHex) (some "10") ⟨hexPairsToBytes wKeyHex.data, 10⟩ (by decide)).2.1,
    (h.1 (some wKeyHex) (some "10") ⟨hexPairsToBytes wKeyHex.data, 10⟩ (by decide)).2.2,
    h.2.1 (some "10"),
    h.2.2.1 "short" (some "10") (by decide),
    h.2.2.2.1 wKeyHex (by decide) (by decide),
    h.2.2.2.2 wKeyHex "0" (by decide) (by decide) (by decide)⟩

/-! ## Claim C10: the password hash crosses the service boundary in signup -/

set_option maxRecDepth 1000000 in
/-- C10 (code bug evidence): at a concrete signup call on an empty store —
with a phone supplied, so that serialization of the document genuinely
succeeds — the entity returned by `signup` still carries the stored bcrypt
hash under its `password` key, while `login` on the same stored user
deletes it before returning.  The spec's boundary rule (the
request/response layer never sees hash internals) is violated by `signup`,
which returns the created document unfiltered. -/
theorem C10_signup_returns_password_hash :
    (signup 10 wSalt wKey wIV []
        ⟨"Mina", "Nasr", "a@b.c", "secret", some "+15551234567"⟩).map
      (fun r => ((docFields wKey r.2).map (fun f => f.lookup "password"),
        (login wKey r.1 ⟨"a@b.c", "secret"⟩).map
          (fun inner => inner.map (fun f => f.lookup "password"))))
      = Except.ok (Except.ok (some (hashPassword 10 wSalt "secret")),
          Except.ok (Except.ok none)) := by
  decide

/-! ## Lemmas: GF(2^128) bounds, linearity and the certified inverse -/

theorem TWO128_pos : 0 < TWO128 := Nat.two_pow_pos 128

theorem xor_cancel_xor_right (a b : Nat) : (a ^^^ b) ^^^ b = a := by
  rw [Nat.xor_assoc, Nat.xor_self, Nat.xor_zero]

theorem mulX_lt {v : Nat} (h : v < TWO128) : mulX v < TWO128 := by
  unfold mulX
  split
  · assumption
  · have h3 : 2 * v - TWO128 < TWO128 := by unfold TWO128 at *; omega
    have h4 : (135 : Nat) < TWO128 := by unfold TWO128; norm_num
    unfold TWO128 at *
    exact Nat.xor_lt_two_pow h3 h4

theorem xPow_lt {h : Nat} (hh : h < TWO128) : ∀ i, xPow i h < TWO128 := by
  intro i
  induction i with
  | zero => exact hh
  | succ i ih => exact mulX_lt ih

theorem foldr_sel_lt (rows : Nat → Nat) (v : Nat) :
    ∀ l : List Nat, (∀ i ∈ l, rows i < TWO128) →
    (l.foldr (fun i acc => (if v.testBit i then rows i else 0) ^^^ acc) 0) < TWO128 := by
  intro l
  induction l with
  | nil => exact fun _ => TWO128_pos
  | cons i t ih =>
    intro hb
    show ((if v.testBit i then rows i else 0) ^^^ _) < TWO128
    have h1 : (if v.testBit i then rows i else 0) < TWO128 := by
      split
      · exact hb i (by simp)
      · exact TWO128_pos
    have h2 := ih (fun j hj => hb j (by simp [hj]))
    unfold TWO128 at *
    exact Nat.xor_lt_two_pow h1 h2

theorem linComb_lt {rows : Nat → Nat} (hb : ∀ i < 128, rows i < TWO128) (v : Nat) :
    linComb rows v < TWO128 :=
  foldr_sel_lt rows v _ (fun i hi => hb i (List.mem_range.mp hi))

theorem gmul_lt {h : Nat} (hh : h < TWO128) (v : Nat) : gmul v h < TWO128 :=
  linComb_lt (fun i _ => xPow_lt hh i) v

theorem blockE_lt (key : List Nat) (b : Nat) : blockE key b < TWO128 := by
  unfold blockE mixRound
  exact Nat.mod_lt _ TWO128_pos

theorem hSub_lt (key : List Nat) : hSub key < TWO128 := blockE_lt key 0

theorem xor_xor_comm4 (p q r s : Nat) :
    (p ^^^ q) ^^^ (r ^^^ s) = (p ^^^ r) ^^^ (q ^^^ s) := by
  rw [Nat.xor_assoc, Nat.xor_assoc]
  congr 1
  rw [← Nat.xor_assoc, ← Nat.xor_assoc, Nat.xor_comm q r]

theorem foldr_sel_xor (rows : Nat → Nat) (a b : Nat) :
    ∀ l : List Nat,
    l.foldr (fun i acc => (if (a ^^^ b).testBit i then rows i else 0) ^^^ acc) 0 =
      (l.foldr (fun i acc => (if a.testBit i then rows i else 0) ^^^ acc) 0) ^^^
      (l.foldr (fun i acc => (if b.testBit i then rows i else 0) ^^^ acc) 0) := by
  intro l
  induction l with
  | nil => simp
  | cons i t ih =>
    simp only [List.foldr_cons]
    rw [ih]
    have hsel : (if (a ^^^ b).testBit i then rows i else 0) =
        (if a.testBit i then rows i else 0) ^^^ (if b.testBit i then rows i else 0) := by
      rw [Nat.testBit_xor]
      cases ha : a.testBit i <;> cases hb2 : b.testBit i <;> simp [Nat.xor_self]
    rw [hsel]
    exact xor_xor_comm4 _ _ _ _

theorem linComb_xor (rows : Nat → Nat) (a b : Nat) :
    linComb rows (a ^^^ b) = linComb rows a ^^^ linComb rows b :=
  foldr_sel_xor rows a b _

theorem linComb_zero (rows : Nat → Nat) : linComb rows 0 = 0 := by
  have haux : ∀ l : List Nat,
      l.foldr (fun i acc => (if (0 : Nat).testBit i then rows i else 0) ^^^ acc) 0 = 0 := by
    intro l
    induction l with
    | nil => rfl
    | cons i t ih => simp [Nat.zero_testBit, ih]
  exact haux _

theorem lt_two_pow_of_testBit_false {w n : Nat} (hw : w < 2 ^ (n + 1))
    (hb : w.testBit n = false) : w < 2 ^ n := by
  rw [Nat.testBit_to_div_mod] at hb
  rw [decide_eq_false_iff_not] at hb
  have hd2 : w / 2 ^ n < 2 := by
    rw [Nat.div_lt_iff_lt_mul (Nat.two_pow_pos n)]
    rw [pow_succ] at hw
    omega
  have hd0 : w / 2 ^ n = 0 := by
    generalize hgen : w / 2 ^ n = d at hd2 hb
    omega
  have hdm := Nat.div_add_mod w (2 ^ n)
  rw [hd0, Nat.mul_zero, Nat.zero_add] at hdm
  rw [← hdm]
  exact Nat.mod_lt _ (Nat.two_pow_pos n)

theorem testBit_clear_lt {w n : Nat} (hw : w < 2 ^ (n + 1)) (hb : w.testBit n = true) :
    w ^^^ 2 ^ n < 2 ^ n := by
  apply lt_two_pow_of_testBit_false
  · exact Nat.xor_lt_two_pow hw (Nat.pow_lt_pow_succ (by omega))
  · rw [Nat.testBit_xor, hb, Nat.testBit_two_pow_self]
    rfl

theorem linComb_leftInv_on (rowsA rowsB : Nat → Nat)
    (hbasis : ∀ i < 128, linComb rowsB (linComb rowsA (2 ^ i)) = 2 ^ i) :
    ∀ n, n ≤ 128 → ∀ v, v < 2 ^ n → linComb rowsB (linComb rowsA v) = v := by
  intro n
  induction n with
  | zero =>
    intro _ v hv
    rw [pow_zero] at hv
    have hv0 : v = 0 := by omega
    subst hv0
    rw [linComb_zero, linComb_zero]
  | succ n ih =>
    intro hn v hv
    cases hbit : v.testBit n with
    | false => exact ih (by omega) v (lt_two_pow_of_testBit_false hv hbit)
    | true =>
      have hw : v ^^^ 2 ^ n < 2 ^ n := testBit_clear_lt hv hbit
      calc linComb rowsB (linComb rowsA v)
          = linComb rowsB (linComb rowsA ((v ^^^ 2 ^ n) ^^^ 2 ^ n)) := by
            rw [xor_cancel_xor_right]
        _ = linComb rowsB (linComb rowsA (v ^^^ 2 ^ n) ^^^ linComb rowsA (2 ^ n)) := by
            rw [linComb_xor]
        _ = linComb rowsB (linComb rowsA (v ^^^ 2 ^ n))
            ^^^ linComb rowsB (linComb rowsA (2 ^ n)) := by rw [linComb_xor]
        _ = (v ^^^ 2 ^ n) ^^^ 2 ^ n := by rw [ih (by omega) _ hw, hbasis n (by omega)]
        _ = v := xor_cancel_xor_right v _

theorem gmul_injOn {m : List Nat} {h : Nat} (hm : invCheck m h = true) :
    ∀ a b, a < TWO128 → b < TWO128 → gmul a h = gmul b h → a = b := by
  have hbasis : ∀ i < 128, linComb (mRow m) (linComb (fun j => xPow j h) (2 ^ i)) = 2 ^ i := by
    intro i hi
    have hx := List.all_eq_true.mp hm i (List.mem_range.mpr hi)
    simp only [beq_iff_eq] at hx
    exact hx
  intro a b ha hb heq
  have h1 := linComb_leftInv_on (fun j => xPow j h) (mRow m) hbasis 128 le_rfl a ha
  have h2 := linComb_leftInv_on (fun j => xPow j h) (mRow m) hbasis 128 le_rfl b hb
  calc a = linComb (mRow m) (linComb (fun j => xPow j h) a) := h1.symm
    _ = linComb (mRow m) (linComb (fun j => xPow j h) b) := by
        rw [show linComb (fun j => xPow j h) a = linComb (fun j => xPow j h) b from heq]
    _ = b := h2

/-! ## Lemmas: big-endian block values, padding, chunking -/

theorem bytesBE_lt : ∀ l : List Nat, (∀ x ∈ l, x < 256) → bytesBE l < 256 ^ l.length := by
  intro l
  induction l with
  | nil => simp [bytesBE]
  | cons x r ih =>
    intro hb
    rw [bytesBE]
    have h1 : bytesBE r < 256 ^ r.length := ih (fun z hz => hb z (by simp [hz]))
    have hx : x < 256 := hb x (by simp)
    have hstep : x * 256 ^ r.length + bytesBE r < (x + 1) * 256 ^ r.length := by
      have : (x + 1) * 256 ^ r.length = x * 256 ^ r.length + 256 ^ r.length := by ring
      omega
    have hle : (x + 1) * 256 ^ r.length ≤ 256 * 256 ^ r.length :=
      Nat.mul_le_mul_right _ (by omega)
    have hpow : 256 * 256 ^ r.length = 256 ^ (x :: r).length := by
      rw [List.length_cons, pow_succ]
      ring
    omega

theorem bytesBE_injOn : ∀ a b : List Nat, a.length = b.length →
    (∀ x ∈ a, x < 256) → (∀ x ∈ b, x < 256) → bytesBE a = bytesBE b → a = b := by
  intro a
  induction a with
  | nil =>
    intro b hlen _ _ _
    cases b with
    | nil => rfl
    | cons y ys => simp at hlen
  | cons x xs ih =>
    intro b hlen ha hb heq
    cases b with
    | nil => simp at hlen
    | cons y ys =>
      simp only [List.length_cons] at hlen
      have hlen2 : xs.length = ys.length := by omega
      rw [bytesBE, bytesBE, hlen2] at heq
      have hx1 : bytesBE xs < 256 ^ ys.length := by
        rw [← hlen2]
        exact bytesBE_lt xs (fun z hz => ha z (by simp [hz]))
      have hy1 : bytesBE ys < 256 ^ ys.length :=
        bytesBE_lt ys (fun z hz => hb z (by simp [hz]))
      have hdiv : ∀ c d : Nat, d < 256 ^ ys.length →
          (c * 256 ^ ys.length + d) / 256 ^ ys.length = c := by
        intro c d hd
        rw [Nat.mul_comm c, Nat.mul_add_div (Nat.pos_pow_of_pos _ (by omega)),
          Nat.div_eq_of_lt hd, Nat.add_zero]
      have hxy : x = y := by
        have h1 := hdiv x (bytesBE xs) hx1
        have h2 := hdiv y (bytesBE ys) hy1
        rw [heq] at h1
        rw [h1] at h2
        exact h2
      subst hxy
      have heq2 : bytesBE xs = bytesBE ys := by omega
      rw [ih ys hlen2 (fun z hz => ha z (by simp [hz]))
        (fun z hz => hb z (by simp [hz])) heq2]

theorem padBlock_lt {c : List Nat} (hlen : c.length ≤ 16) (hb : ∀ x ∈ c, x < 256) :
    padBlock c < TWO128 := by
  unfold padBlock
  have hball : ∀ x ∈ c ++ List.replicate (16 - c.length) 0, x < 256 := by
    intro x hx
    rw [List.mem_append] at hx
    rcases hx with hx | hx
    · exact hb x hx
    · rw [List.mem_replicate] at hx
      omega
  have h1 := bytesBE_lt _ hball
  rw [List.length_append, List.length_replicate] at h1
  have h2 : c.length + (16 - c.length) = 16 := by omega
  rw [h2] at h1
  have h3 : (256 : Nat) ^ 16 = 2 ^ 128 := by norm_num
  rw [h3] at h1
  exact h1

theorem padBlock_injOn {c1 c2 : List Nat} (hlen : c1.length = c2.length)
    (h16 : c1.length ≤ 16) (hb1 : ∀ x ∈ c1, x < 256) (hb2 : ∀ x ∈ c2, x < 256)
    (hne : c1 ≠ c2) : padBlock c1 ≠ padBlock c2 := by
  intro heq
  unfold padBlock at heq
  apply hne
  have hball : ∀ (c : List Nat), (∀ x ∈ c, x < 256) →
      ∀ x ∈ c ++ List.replicate (16 - c.length) 0, x < 256 := by
    intro c hc x hx
    rw [List.mem_append] at hx
    rcases hx with hx | hx
    · exact hc x hx
    · rw [List.mem_replicate] at hx
      omega
  have hleneq : (c1 ++ List.replicate (16 - c1.length) 0).length
      = (c2 ++ List.replicate (16 - c2.length) 0).length := by
    rw [List.length_append, List.length_append, List.length_replicate,
      List.length_replicate, hlen]
  have hfull := bytesBE_injOn _ _ hleneq (hball c1 hb1) (hball c2 hb2) heq
  exact (List.append_inj hfull hlen).1

theorem chunksGo_fuel : ∀ f g : Nat, ∀ l : List Nat,
    l.length ≤ f → l.length ≤ g → chunksGo f l = chunksGo g l := by
  intro f
  induction f with
  | zero =>
    intro g l hf hg
    have hl : l = [] := by cases l <;> simp_all
    subst hl
    cases g <;> rfl
  | succ f ih =>
    intro g l hf hg
    cases l with
    | nil => cases g <;> rfl
    | cons b r =>
      cases g with
      | zero => simp at hg
      | succ g =>
        simp only [List.length_cons] at hf hg
        rw [chunksGo, chunksGo]
        rw [ih g (r.drop 15) (by simp only [List.length_drop]; omega)
          (by simp only [List.length_drop]; omega)]

theorem chunks16_nil : chunks16 [] = [] := rfl

theorem chunks16_cons16 {l : List Nat} (h : l ≠ []) :
    chunks16 l = l.take 16 :: chunks16 (l.drop 16) := by
  cases l with
  | nil => exact absurd rfl h
  | cons b r =>
    show chunksGo (r.length + 1) (b :: r) = _
    rw [chunksGo]
    congr 1
    exact chunksGo_fuel r.length (r.drop 15).length (r.drop 15)
      (by simp only [List.length_drop]; omega) le_rfl

theorem chunksGo_facts : ∀ f : Nat, ∀ l : List Nat, l.length ≤ f →
    ∀ ch ∈ chunksGo f l, ch.length ≤ 16 ∧ ∀ z ∈ ch, z ∈ l := by
  intro f
  induction f with
  | zero => intro l _ ch hch; simp [chunksGo] at hch
  | succ f ih =>
    intro l hl ch hch
    cases l with
    | nil => simp [chunksGo] at hch
    | cons b r =>
      rw [chunksGo] at hch
      simp only [List.mem_cons] at hch
      rcases hch with rfl | hch
      · constructor
        · simp only [List.length_cons, List.length_take]
          omega
        · intro z hz
          simp only [List.mem_cons] at hz
          rcases hz with rfl | hz
          · simp
          · simp [List.mem_of_mem_take hz]
      · simp only [List.length_cons] at hl
        have := ih (r.drop 15) (by simp only [List.length_drop]; omega) ch hch
        exact ⟨this.1, fun z hz => by simp [List.mem_of_mem_drop (this.2 z hz)]⟩

theorem chunks16_facts {l : List Nat} :
    ∀ ch ∈ chunks16 l, ch.length ≤ 16 ∧ ∀ z ∈ ch, z ∈ l :=
  chunksGo_facts l.length l le_rfl

/-! ## Lemmas: a single changed byte changes a single GHASH block -/

theorem xor_left_cancel {a x y : Nat} (h : a ^^^ x = a ^^^ y) : x = y := by
  have h2 : a ^^^ (a ^^^ x) = a ^^^ (a ^^^ y) := by rw [h]
  rwa [← Nat.xor_assoc, Nat.xor_self, Nat.zero_xor,
    ← Nat.xor_assoc, Nat.xor_self, Nat.zero_xor] at h2

theorem chunksMap_one_diff_base (pre suf : List Nat) (b v : Nat)
    (hp : pre.length < 16) (hne : b ≠ v) (hb : b < 256) (hv : v < 256)
    (hpre : ∀ z ∈ pre, z < 256) (hsuf : ∀ z ∈ suf, z < 256) :
    ∃ bpre x y bsuf,
      (chunks16 (pre ++ b :: suf)).map padBlock = bpre ++ x :: bsuf ∧
      (chunks16 (pre ++ v :: suf)).map padBlock = bpre ++ y :: bsuf ∧
      x ≠ y ∧ (∀ z ∈ bpre, z < TWO128) ∧ x < TWO128 ∧ y < TWO128 ∧
      (∀ z ∈ bsuf, z < TWO128) := by
  have hnil : ∀ w : Nat, pre ++ w :: suf ≠ [] := by
    intro w h
    have := congrArg List.length h
    simp at this
  have htake : ∀ w : Nat,
      (pre ++ w :: suf).take 16 = pre ++ w :: suf.take (15 - pre.length) := by
    intro w
    rw [List.take_append_eq_append_take, List.take_of_length_le (by omega)]
    congr 1
    rw [show 16 - pre.length = (15 - pre.length) + 1 from by omega]
    rfl
  have hdrop : ∀ w : Nat, (pre ++ w :: suf).drop 16 = suf.drop (15 - pre.length) := by
    intro w
    rw [List.drop_append_eq_append_drop, List.drop_eq_nil_of_le (by omega),
      List.nil_append]
    rw [show 16 - pre.length = (15 - pre.length) + 1 from by omega]
    rfl
  have hcb : ∀ w : Nat, w < 256 →
      ∀ z ∈ pre ++ w :: suf.take (15 - pre.length), z < 256 := by
    intro w hw z hz
    rw [List.mem_append] at hz
    rcases hz with hz | hz
    · exact hpre z hz
    · simp only [List.mem_cons] at hz
      rcases hz with rfl | hz
      · exact hw
      · exact hsuf z (List.mem_of_mem_take hz)
  have hclen : ∀ w : Nat, (pre ++ w :: suf.take (15 - pre.length)).length ≤ 16 := by
    intro w
    simp only [List.length_append, List.length_cons, List.length_take]
    omega
  rw [chunks16_cons16 (hnil b), chunks16_cons16 (hnil v), htake b, htake v,
    hdrop b, hdrop v]
  simp only [List.map_cons]
  refine ⟨[], padBlock (pre ++ b :: suf.take (15 - pre.length)),
    padBlock (pre ++ v :: suf.take (15 - pre.length)),
    (chunks16 (suf.drop (15 - pre.length))).map padBlock,
    rfl, rfl, ?_, by simp, ?_, ?_, ?_⟩
  · apply padBlock_injOn
    · simp [List.length_append]
    · exact hclen b
    · exact hcb b hb
    · exact hcb v hv
    · intro hceq
      have h2 := List.append_cancel_left hceq
      exact hne ((List.cons.injEq _ _ _ _).mp h2).1
  · exact padBlock_lt (hclen b) (hcb b hb)
  · exact padBlock_lt (hclen v) (hcb v hv)
  · intro z hz
    simp only [List.mem_map] at hz
    obtain ⟨ch, hch, rfl⟩ := hz
    have hf := chunks16_facts ch hch
    exact padBlock_lt hf.1 (fun q hq => hsuf q (List.mem_of_mem_drop (hf.2 q hq)))

theorem chunksMap_one_diff : ∀ (n : Nat) (pre suf : List Nat) (b v : Nat),
    pre.length ≤ n → b ≠ v → b < 256 → v < 256 →
    (∀ z ∈ pre, z < 256) → (∀ z ∈ suf, z < 256) →
    ∃ bpre x y bsuf,
      (chunks16 (pre ++ b :: suf)).map padBlock = bpre ++ x :: bsuf ∧
      (chunks16 (pre ++ v :: suf)).map padBlock = bpre ++ y :: bsuf ∧
      x ≠ y ∧ (∀ z ∈ bpre, z < TWO128) ∧ x < TWO128 ∧ y < TWO128 ∧
      (∀ z ∈ bsuf, z < TWO128) := by
  intro n
  induction n with
  | zero =>
    intro pre suf b v hn hne hb hv hpre hsuf
    exact chunksMap_one_diff_base pre suf b v (by omega) hne hb hv hpre hsuf
  | succ n ih =>
    intro pre suf b v hn hne hb hv hpre hsuf
    by_cases hp : pre.length < 16
    · exact chunksMap_one_diff_base pre suf b v hp hne hb hv hpre hsuf
    · have hnil : ∀ w : Nat, pre ++ w :: suf ≠ [] := by
        intro w h
        have := congrArg List.length h
        simp at this
      have htake : ∀ w : Nat, (pre ++ w :: suf).take 16 = pre.take 16 := by
        intro w
        rw [List.take_append_eq_append_take,
          show 16 - pre.length = 0 from by omega, List.take_zero, List.append_nil]
      have hdrop : ∀ w : Nat,
          (pre ++ w :: suf).drop 16 = pre.drop 16 ++ w :: suf := by
        intro w
        rw [List.drop_append_eq_append_drop,
          show 16 - pre.length = 0 from by omega, List.drop_zero]
      obtain ⟨bpre, x, y, bsuf, e1, e2, hxy, h1, h2, h3, h4⟩ :=
        ih (pre.drop 16) suf b v
          (by simp only [List.length_drop]; omega) hne hb hv
          (fun z hz => hpre z (List.mem_of_mem_drop hz)) hsuf
      refine ⟨padBlock (pre.take 16) :: bpre, x, y, bsuf, ?_, ?_, hxy, ?_, h2, h3, h4⟩
      · rw [chunks16_cons16 (hnil b), htake b, hdrop b]
        simp only [List.map_cons]
        rw [e1]
        rfl
      · rw [chunks16_cons16 (hnil v), htake v, hdrop v]
        simp only [List.map_cons]
        rw [e2]
        rfl
      · intro z hz
        simp only [List.mem_cons] at hz
        rcases hz with rfl | hz
        · exact padBlock_lt (by simp only [List.length_take]; omega)
            (fun q hq => hpre q (List.mem_of_mem_take hq))
        · exact h1 z hz

theorem gBlocks_one_diff (pre suf : List Nat) (b v : Nat) (hne : b ≠ v)
    (hb : b < 256) (hv : v < 256)
    (hpre : ∀ z ∈ pre, z < 256) (hsuf : ∀ z ∈ suf, z < 256) :
    ∃ bpre x y bsuf,
      gBlocks (pre ++ b :: suf) = bpre ++ x :: bsuf ∧
      gBlocks (pre ++ v :: suf) = bpre ++ y :: bsuf ∧
      x ≠ y ∧ (∀ z ∈ bpre, z < TWO128) ∧ x < TWO128 ∧ y < TWO128 ∧
      (∀ z ∈ bsuf, z < TWO128) := by
  obtain ⟨bpre, x, y, bsuf, e1, e2, hxy, h1, h2, h3, h4⟩ :=
    chunksMap_one_diff pre.length pre suf b v le_rfl hne hb hv hpre hsuf
  have hlen : (pre ++ v :: suf).length = (pre ++ b :: suf).length := by
    simp [List.length_append]
  refine ⟨bpre, x, y, bsuf ++ [lenBlock (pre ++ b :: suf).length], ?_, ?_, hxy, h1,
    h2, h3, ?_⟩
  · unfold gBlocks
    rw [e1, List.append_assoc, List.cons_append]
  · unfold gBlocks
    rw [e2, hlen, List.append_assoc, List.cons_append]
  · intro z hz
    rw [List.mem_append] at hz
    rcases hz with hz | hz
    · exact h4 z hz
    · simp only [List.mem_singleton] at hz
      subst hz
      exact Nat.mod_lt _ TWO128_pos

/-! ## Lemmas: GHASH separates block lists that differ in one position -/

theorem ghash_foldl_lt {h : Nat} (hh : h < TWO128) :
    ∀ l : List Nat, ∀ a : Nat, a < TWO128 →
    List.foldl (fun y x => gmul (y ^^^ x) h) a l < TWO128 := by
  intro l
  induction l with
  | nil => intro a ha; exact ha
  | cons z t ih => intro a _; exact ih _ (gmul_lt hh _)

theorem ghash_foldl_ne {h : Nat} {m : List Nat} (hh : h < TWO128)
    (hm : invCheck m h = true) :
    ∀ l : List Nat, (∀ z ∈ l, z < TWO128) → ∀ a1 a2 : Nat, a1 < TWO128 →
    a2 < TWO128 → a1 ≠ a2 →
    List.foldl (fun y x => gmul (y ^^^ x) h) a1 l ≠
      List.foldl (fun y x => gmul (y ^^^ x) h) a2 l := by
  intro l
  induction l with
  | nil => intro _ a1 a2 _ _ hne; exact hne
  | cons z t ih =>
    intro hbz a1 a2 ha1 ha2 hne
    simp only [List.foldl_cons]
    have hz : z < TWO128 := hbz z (by simp)
    have hx1 : a1 ^^^ z < TWO128 := by
      unfold TWO128 at *
      exact Nat.xor_lt_two_pow ha1 hz
    have hx2 : a2 ^^^ z < TWO128 := by
      unfold TWO128 at *
      exact Nat.xor_lt_two_pow ha2 hz
    apply ih (fun q hq => hbz q (by simp [hq])) _ _ (gmul_lt hh _) (gmul_lt hh _)
    intro heq
    have h2 := gmul_injOn hm _ _ hx1 hx2 heq
    have h3 : z ^^^ a1 = z ^^^ a2 := by
      rw [Nat.xor_comm z a1, Nat.xor_comm z a2]
      exact h2
    exact hne (xor_left_cancel h3)

theorem ghash_one_diff {h : Nat} {m : List Nat} (hh : h < TWO128)
    (hm : invCheck m h = true) (bpre : List Nat) (x y : Nat) (bsuf : List Nat)
    (hxy : x ≠ y) (hbpre : ∀ z ∈ bpre, z < TWO128) (hx : x < TWO128)
    (hy : y < TWO128) (hbsuf : ∀ z ∈ bsuf, z < TWO128) :
    ghash h (bpre ++ x :: bsuf) ≠ ghash h (bpre ++ y :: bsuf) := by
  unfold ghash
  rw [List.foldl_append, List.foldl_append]
  simp only [List.foldl_cons]
  have ha0 : List.foldl (fun y x => gmul (y ^^^ x) h) 0 bpre < TWO128 :=
    ghash_foldl_lt hh bpre 0 TWO128_pos
  apply ghash_foldl_ne hh hm bsuf hbsuf _ _ (gmul_lt hh _) (gmul_lt hh _)
  intro heq
  have hxor1 : List.foldl (fun y x => gmul (y ^^^ x) h) 0 bpre ^^^ x < TWO128 := by
    unfold TWO128 at *
    exact Nat.xor_lt_two_pow ha0 hx
  have hxor2 : List.foldl (fun y x => gmul (y ^^^ x) h) 0 bpre ^^^ y < TWO128 := by
    unfold TWO128 at *
    exact Nat.xor_lt_two_pow ha0 hy
  have h2 := gmul_injOn hm _ _ hxor1 hxor2 heq
  exact hxy (xor_left_cancel h2)

theorem bytesBE_append_single : ∀ (l : List Nat) (z : Nat),
    bytesBE (l ++ [z]) = bytesBE l * 256 + z := by
  intro l
  induction l with
  | nil => intro z; simp [bytesBE]
  | cons w r ih =>
    intro z
    show bytesBE (w :: (r ++ [z])) = _
    rw [bytesBE, bytesBE, ih z, List.length_append]
    simp only [List.length_singleton]
    rw [pow_succ]
    ring

theorem bytesBE_natToBytesBE : ∀ (k n : Nat), bytesBE (natToBytesBE k n) = n % 256 ^ k := by
  intro k
  induction k with
  | zero => intro n; simp [natToBytesBE, bytesBE, Nat.mod_one]
  | succ k ih =>
    intro n
    rw [natToBytesBE, bytesBE_append_single, ih]
    rw [pow_succ, Nat.mul_comm (256 ^ k) 256, Nat.mod_mul]
    ring

theorem natToBytesBE_injOn {n1 n2 : Nat} (h1 : n1 < TWO128) (h2 : n2 < TWO128)
    (heq : natToBytesBE 16 n1 = natToBytesBE 16 n2) : n1 = n2 := by
  have e1 := bytesBE_natToBytesBE 16 n1
  have e2 := bytesBE_natToBytesBE 16 n2
  have h256 : (256 : Nat) ^ 16 = 2 ^ 128 := by norm_num
  unfold TWO128 at h1 h2
  rw [heq, e2] at e1
  rw [h256, Nat.mod_eq_of_lt h1, Nat.mod_eq_of_lt h2] at e1
  exact e1.symm

theorem authTag_one_diff_ne (key iv : List Nat) (m : List Nat)
    (hm : invCheck m (hSub key) = true)
    (pre suf : List Nat) (b v : Nat) (hne : b ≠ v) (hb : b < 256) (hv : v < 256)
    (hpre : ∀ z ∈ pre, z < 256) (hsuf : ∀ z ∈ suf, z < 256) :
    authTag key iv (pre ++ b :: suf) ≠ authTag key iv (pre ++ v :: suf) := by
  intro heq
  unfold authTag at heq
  obtain ⟨bpre, x, y, bsuf, e1, e2, hxy, hb1, hb2, hb3, hb4⟩ :=
    gBlocks_one_diff pre suf b v hne hb hv hpre hsuf
  have hg1 : ghash (hSub key) (gBlocks (pre ++ b :: suf)) < TWO128 :=
    ghash_foldl_lt (hSub_lt key) _ 0 TWO128_pos
  have hg2 : ghash (hSub key) (gBlocks (pre ++ v :: suf)) < TWO128 :=
    ghash_foldl_lt (hSub_lt key) _ 0 TWO128_pos
  have hmask := blockE_lt key (j0 key iv)
  have hxlt : ghash (hSub key) (gBlocks (pre ++ b :: suf)) ^^^ blockE key (j0 key iv)
      < TWO128 := by
    unfold TWO128 at *
    exact Nat.xor_lt_two_pow hg1 hmask
  have hylt : ghash (hSub key) (gBlocks (pre ++ v :: suf)) ^^^ blockE key (j0 key iv)
      < TWO128 := by
    unfold TWO128 at *
    exact Nat.xor_lt_two_pow hg2 hmask
  have hn := natToBytesBE_injOn hxlt hylt heq
  have hgeq : ghash (hSub key) (gBlocks (pre ++ b :: suf)) =
      ghash (hSub key) (gBlocks (pre ++ v :: suf)) := by
    have := congrArg (fun t => t ^^^ blockE key (j0 key iv)) hn
    simpa [xor_cancel_xor_right] using this
  rw [e1, e2] at hgeq
  exact ghash_one_diff (hSub_lt key) hm bpre x y bsuf hxy hb1 hb2 hb3 hb4 hgeq

/-! ## Lemmas: one changed hex character changes one decoded byte -/

theorem isHexChar_ne_colon {c : Char} (h : isHexChar c = true) : c ≠ ':' := by
  intro hc
  subst hc
  exact absurd h (by decide)

theorem hexPairs_one_char :
    ∀ (u : List Char), ∀ (c cNew : Char) (w : List Char),
    (∀ ch ∈ u, isHexChar ch = true) → isHexChar c = true → isHexChar cNew = true →
    (∀ ch ∈ w, isHexChar ch = true) → hexVal cNew ≠ hexVal c →
    (u.length + (1 + w.length)) % 2 = 0 →
    ∃ bpre x y bsuf,
      hexPairsToBytes (u ++ c :: w) = bpre ++ x :: bsuf ∧
      hexPairsToBytes (u ++ cNew :: w) = bpre ++ y :: bsuf ∧
      x ≠ y ∧ x < 256 ∧ y < 256 := by
  intro u
  induction u using hexPairsToBytes.induct with
  | case1 c1 c2 rest ht ih =>
    intro c cNew w hu hc hcn hw hne hlen
    simp only [List.length_cons] at hlen
    obtain ⟨bpre, x, y, bsuf, e1, e2, hxy, hx, hy⟩ :=
      ih c cNew w (fun ch hch => hu ch (by simp [hch])) hc hcn hw hne (by omega)
    refine ⟨(hexVal c1 * 16 + hexVal c2) :: bpre, x, y, bsuf, ?_, ?_, hxy, hx, hy⟩
    · rw [List.cons_append, List.cons_append, hexPairsToBytes, if_pos ht, e1]
      rfl
    · rw [List.cons_append, List.cons_append, hexPairsToBytes, if_pos ht, e2]
      rfl
  | case2 c1 c2 rest ht =>
    intro c cNew w hu hc hcn hw hne hlen
    exfalso
    rw [hu c1 (by simp), hu c2 (by simp)] at ht
    exact ht rfl
  | case3 t hnot =>
    intro c cNew w hu hc hcn hw hne hlen
    cases t with
    | nil =>
      cases w with
      | nil => simp at hlen
      | cons w0 ws =>
        have hw0 : isHexChar w0 = true := hw w0 (by simp)
        have hvc := hexVal_lt c hc
        have hvcn := hexVal_lt cNew hcn
        have hvw := hexVal_lt w0 hw0
        refine ⟨[], hexVal c * 16 + hexVal w0, hexVal cNew * 16 + hexVal w0,
          hexPairsToBytes ws, ?_, ?_, by omega, by omega, by omega⟩
        · rw [List.nil_append, hexPairsToBytes, if_pos (by rw [hc, hw0]; rfl)]
          rfl
        · rw [List.nil_append, hexPairsToBytes, if_pos (by rw [hcn, hw0]; rfl)]
          rfl
    | cons t0 t2 =>
      cases t2 with
      | nil =>
        have ht0 : isHexChar t0 = true := hu t0 (by simp)
        have hvc := hexVal_lt c hc
        have hvcn := hexVal_lt cNew hcn
        have hvt := hexVal_lt t0 ht0
        refine ⟨[], hexVal t0 * 16 + hexVal c, hexVal t0 * 16 + hexVal cNew,
          hexPairsToBytes w, ?_, ?_, by omega, by omega, by omega⟩
        · show hexPairsToBytes (t0 :: c :: w) = _
          rw [hexPairsToBytes, if_pos (by rw [ht0, hc]; rfl)]
          rfl
        · show hexPairsToBytes (t0 :: cNew :: w) = _
          rw [hexPairsToBytes, if_pos (by rw [ht0, hcn]; rfl)]
          rfl
      | cons t1 t3 => exact (hnot t0 t1 t3 rfl).elim

/-! ## Claim C2: tamper detection -/

/-- C2: for a valid encoding produced by `encryptData`, changing any single
hex character of the TAG segment or of the CIPHERTEXT segment to a hex
character of different value makes `decryptData` fail with the
authentication-failure error — never returning any plaintext.  A changed
character is rendered by the position decomposition `segment = u ++ c :: w`
with the replacement `cNew`.  The hypothesis `invCheck m (hSub key) = true`
certifies (by an explicit inverse matrix) that multiplication by the GHASH
subkey `H = E_K(0)` is injective, which is the invertibility-of-`H`
condition tag sensitivity rests on in GCM. -/
theorem C2_tamper_detection (key iv : List Nat) (x : String) (m : List Nat)
    (hiv12 : iv.length = 12) (hiv : ∀ b ∈ iv, b < 256)
    (hm : invCheck m (hSub key) = true) :
    (∀ (u w : List Char) (c cNew : Char),
      bytesToHex (authTag key iv (ctBytes key iv x)) = u ++ c :: w →
      isHexChar cNew = true → hexVal cNew ≠ hexVal c →
      decryptData key (String.mk (bytesToHex iv ++ ':' :: (u ++ cNew :: w) ++ ':'
        :: bytesToHex (ctBytes key iv x))) = Except.error DecryptError.authFailure) ∧
    (∀ (u w : List Char) (c cNew : Char),
      bytesToHex (ctBytes key iv x) = u ++ c :: w →
      isHexChar cNew = true → hexVal cNew ≠ hexVal c →
      decryptData key (String.mk (bytesToHex iv ++ ':'
        :: bytesToHex (authTag key iv (ctBytes key iv x)) ++ ':' :: (u ++ cNew :: w)))
        = Except.error DecryptError.authFailure) := by
  constructor
  · -- a hex character of the TAG segment is changed
    intro u w c cNew hdec hhexn hvne
    have htaghex := mem_bytesToHex (authTag_lt key iv (ctBytes key iv x))
    have hu : ∀ ch ∈ u, isHexChar ch = true := by
      intro ch hch
      exact (htaghex ch (by rw [hdec]; simp [hch])).1
    have hcx : isHexChar c = true :=
      (htaghex c (by rw [hdec]; simp)).1
    have hw : ∀ ch ∈ w, isHexChar ch = true := by
      intro ch hch
      exact (htaghex ch (by rw [hdec]; simp [hch])).1
    have hnocolon : ':' ∉ u ++ cNew :: w := by
      intro hmem
      rw [List.mem_append] at hmem
      rcases hmem with hmem | hmem
      · exact isHexChar_ne_colon (hu ':' hmem) rfl
      · simp only [List.mem_cons] at hmem
        rcases hmem with hmem | hmem
        · exact isHexChar_ne_colon hhexn hmem.symm
        · exact isHexChar_ne_colon (hw ':' hmem) rfl
    have hparity : (u.length + (1 + w.length)) % 2 = 0 := by
      have hle := congrArg List.length hdec
      rw [length_bytesToHex, authTag_length, List.length_append, List.length_cons]
        at hle
      omega
    obtain ⟨bpre, xb, yb, bsuf, e1, e2, hxy, hxlt, hylt⟩ :=
      hexPairs_one_char u c cNew w hu hcx hhexn hw hvne hparity
    have hround : hexPairsToBytes (bytesToHex (authTag key iv (ctBytes key iv x)))
        = authTag key iv (ctBytes key iv x) :=
      hexPairsToBytes_bytesToHex (authTag_lt key iv _)
    have htag_eq : authTag key iv (ctBytes key iv x) = bpre ++ xb :: bsuf := by
      rw [← hround, hdec, e1]
    have hlx : (bpre ++ xb :: bsuf).length = 16 := by
      rw [← htag_eq, authTag_length]
    have hly : (bpre ++ yb :: bsuf).length = 16 := by
      rw [List.length_append, List.length_cons]
      rw [List.length_append, List.length_cons] at hlx
      omega
    unfold decryptData
    rw [data_mk, List.append_assoc, List.cons_append]
    rw [splitColon_append _ (colon_not_mem_bytesToHex hiv)]
    rw [splitColon_append _ hnocolon]
    rw [splitColon_no_colon (colon_not_mem_bytesToHex (ctBytes_lt key iv x))]
    simp only [List.headD, List.get?]
    rw [hexPairsToBytes_bytesToHex hiv]
    rw [if_neg (by rw [hiv12]; omega)]
    rw [e2]
    rw [if_neg (by rw [hly]; decide)]
    rw [hexPairsToBytes_bytesToHex (ctBytes_lt key iv x)]
    rw [if_neg ?_]
    rw [hly, List.take_of_length_le (le_of_eq (authTag_length key iv _)), htag_eq]
    intro hfeq
    have h2 := List.append_cancel_left hfeq
    exact hxy ((List.cons.injEq _ _ _ _).mp h2).1
  · -- a hex character of the CIPHERTEXT segment is changed
    intro u w c cNew hdec hhexn hvne
    have hcthex := mem_bytesToHex (ctBytes_lt key iv x)
    have hu : ∀ ch ∈ u, isHexChar ch = true := by
      intro ch hch
      exact (hcthex ch (by rw [hdec]; simp [hch])).1
    have hcx : isHexChar c = true :=
      (hcthex c (by rw [hdec]; simp)).1
    have hw : ∀ ch ∈ w, isHexChar ch = true := by
      intro ch hch
      exact (hcthex ch (by rw [hdec]; simp [hch])).1
    have hnocolon : ':' ∉ u ++ cNew :: w := by
      intro hmem
      rw [List.mem_append] at hmem
      rcases hmem with hmem | hmem
      · exact isHexChar_ne_colon (hu ':' hmem) rfl
      · simp only [List.mem_cons] at hmem
        rcases hmem with hmem | hmem
        · exact isHexChar_ne_colon hhexn hmem.symm
        · exact isHexChar_ne_colon (hw ':' hmem) rfl
    have hparity : (u.length + (1 + w.length)) % 2 = 0 := by
      have hle := congrArg List.length hdec
      rw [length_bytesToHex, List.length_append, List.length_cons] at hle
      omega
    obtain ⟨bpre, xb, yb, bsuf, e1, e2, hxy, hxlt, hylt⟩ :=
      hexPairs_one_char u c cNew w hu hcx hhexn hw hvne hparity
    have hround : hexPairsToBytes (bytesToHex (ctBytes key iv x))
        = ctBytes key iv x := hexPairsToBytes_bytesToHex (ctBytes_lt key iv x)
    have hct_eq : ctBytes key iv x = bpre ++ xb :: bsuf := by
      rw [← hround, hdec, e1]
    have hbpre : ∀ z ∈ bpre, z < 256 := by
      intro z hz
      exact ctBytes_lt key iv x z (by rw [hct_eq]; simp [hz])
    have hbsuf : ∀ z ∈ bsuf, z < 256 := by
      intro z hz
      exact ctBytes_lt key iv x z (by rw [hct_eq]; simp [hz])
    have htagne := authTag_one_diff_ne key iv m hm bpre bsuf xb yb hxy hxlt hylt
      hbpre hbsuf
    unfold decryptData
    rw [data_mk, List.append_assoc, List.cons_append]
    rw [splitColon_append _ (colon_not_mem_bytesToHex hiv)]
    rw [splitColon_append _ (colon_not_mem_bytesToHex (authTag_lt key iv _))]
    rw [splitColon_no_colon hnocolon]
    simp only [List.headD, List.get?]
    rw [hexPairsToBytes_bytesToHex hiv]
    rw [if_neg (by rw [hiv12]; omega)]
    rw [hexPairsToBytes_bytesToHex (authTag_lt key iv _)]
    rw [if_neg (by rw [authTag_length]; decide)]
    rw [e2]
    rw [if_neg ?_]
    rw [authTag_length, List.take_of_length_le (le_of_eq (authTag_length key iv _))]
    intro hfeq
    apply htagne
    rw [← hct_eq, hfeq, hct_eq]

set_option maxRecDepth 1000000 in
/-- Witness for C2: at a concrete key, IV and plaintext, changing the first
hex character of the TAG segment (`b` → `0`) and, separately, the first hex
character of the CIPHERTEXT segment (`5` → `0`) both make decryption fail
with the authentication failure. -/
theorem C2_tamper_detection_witness :
    decryptData wKey (String.mk (bytesToHex wIV ++ ':'
      :: ([] ++ '0' :: (bytesToHex (authTag wKey wIV (ctBytes wKey wIV "hi"))).tail)
      ++ ':' :: bytesToHex (ctBytes wKey wIV "hi")))
      = Except.error DecryptError.authFailure ∧
    decryptData wKey (String.mk (bytesToHex wIV ++ ':'
      :: bytesToHex (authTag wKey wIV (ctBytes wKey wIV "hi")) ++ ':'
      :: ([] ++ '0' :: (bytesToHex (ctBytes wKey wIV "hi")).tail)))
      = Except.error DecryptError.authFailure := by
  have hm : invCheck mW (hSub wKey) = true := by decide
  have h := C2_tamper_detection wKey wIV "hi" mW (by decide) (by decide) hm
  exact ⟨h.1 [] (bytesToHex (authTag wKey wIV (ctBytes wKey wIV "hi"))).tail
      ((bytesToHex (authTag wKey wIV (ctBytes wKey wIV "hi"))).headD 'f') '0'
      (by decide) (by decide) (by decide),
    h.2 [] (bytesToHex (ctBytes wKey wIV "hi")).tail
      ((bytesToHex (ctBytes wKey wIV "hi")).headD 'f') '0'
      (by decide) (by decide) (by decide)⟩
